import Mathlib

/-!
# Verification development for `gnanderson/pqueue`

A shallow embedding of `src/pqueue.go` (package `pqueue`) together with the
functions of the Go standard library package `container/heap` that it calls
(`heap.Init`, `heap.Push`, `heap.Pop`, `heap.Remove` and their helpers `up` and
`down`).

Modelling conventions.

* A Go method with receiver `q *Queue` is a state transformer `Exec (Queue α) ρ`:
  it maps the queue before the call to an outcome `Res`, which is either a normal
  return `ok ret q'` or a run-time panic `panic f q'`, each carrying the queue as
  the call left it (a panic can be recovered by the caller, who still holds `q`).
* Go `int` indices are `Int`; indexing a slice outside `0 ≤ i < len` panics.  No
  index computed here can overflow a 64-bit `int`, as every index is below
  `2 * len + 2` and a slice of interface values has fewer than `2 ^ 60` elements.
* `α` is the type of the (non-nil) values stored in the queue; it implements the
  interface `Queueable`.  A value of static type `interface{}` is a `Value α`.
* The unbounded `for` loops of `container/heap` are given a loop bound; running
  out of it is the separate fault `Fault.loopBound`, which is shown never to occur
  (theorems `noBound_*`).
-/

namespace pqueue

/-! ## Data model -/

/-- Queueable describes the interface objects must satisfy to be placed in the
queue: `Priority() int`. -/
class Queueable (α : Type) where
  Priority : α → Int

export Queueable (Priority)

/-- The element type of `pqueue_test.go`: `type message struct { importance int }`
with `func (m *message) Priority() int { return m.importance }`. -/
structure message where
  importance : Int
deriving DecidableEq, Repr

instance : Queueable message := ⟨fun m => m.importance⟩

/-- A value of static type `interface{}`: either one whose dynamic type implements
`Queueable`, or any other value (identified by a tag), for which the type
assertion `x.(Queueable)` fails. -/
inductive Value (α : Type) where
  | queueable (y : α)
  | other (tag : Nat)
deriving DecidableEq, Repr

/-- The package-level error values `QERR_OUT_OF_BOUNDS` and `QERR_NOT_QUEUEABLE`. -/
inductive Error where
  | QERR_OUT_OF_BOUNDS
  | QERR_NOT_QUEUEABLE
deriving DecidableEq, Repr

/-- What a panic carries: a Go run-time error for an index out of range, a value
raised by an explicit `panic(e)`, or the exhaustion of a loop bound of the model. -/
inductive Fault where
  | indexOutOfRange
  | raised (e : Error)
  | loopBound
deriving DecidableEq, Repr

/-- Queue is the basic priority queue structure:
`type Queue struct { heaped bool; collection []Queueable }`. -/
structure Queue (α : Type) where
  heaped : Bool
  collection : List α
deriving DecidableEq, Repr

/-- Outcome of running a method on a state of type `σ`. -/
inductive Res (σ ρ : Type) where
  | ok (ret : ρ) (st : σ)
  | panic (f : Fault) (st : σ)
deriving DecidableEq, Repr

/-- A method with a pointer receiver of type `σ` that returns a `ρ`. -/
def Exec (σ ρ : Type) : Type := σ → Res σ ρ

/-- Normal return of a value, state untouched. -/
def Exec.ret {σ ρ : Type} (r : ρ) : Exec σ ρ := fun s => Res.ok r s

/-- Sequencing: a panic in the first statement aborts the rest. -/
def Exec.seq {σ ρ τ : Type} (m : Exec σ ρ) (f : ρ → Exec σ τ) : Exec σ τ := fun s =>
  match m s with
  | Res.ok r s1 => f r s1
  | Res.panic e s1 => Res.panic e s1

instance {σ : Type} : Monad (Exec σ) where
  pure := Exec.ret
  bind := Exec.seq

/-- Slice indexing `l[i]` with a Go `int` index: `none` stands for the run-time
panic "index out of range". -/
def index {α : Type} (l : List α) (i : Int) : Option α :=
  if i < 0 then none else l[i.toNat]?

variable {α : Type} [Queueable α]

/-! ## Package `pqueue` (src/pqueue.go) -/

/-- NewQueue returns a new queue: `&Queue{false, make([]Queueable, 0, 100)}`.  The
capacity of 100 is an allocation hint and has no observable effect. -/
def NewQueue : Queue α := { heaped := false, collection := [] }

/-- Len satisfies the sort interface: `len(q.collection)`. -/
def Len : Exec (Queue α) Int := fun q => Res.ok (q.collection.length : Int) q

/-- Less satisfies the sort interface:
`q.collection[i].Priority() < q.collection[j].Priority()`. -/
def Less (i j : Int) : Exec (Queue α) Bool := fun q =>
  match index q.collection i, index q.collection j with
  | some a, some b => Res.ok (decide (Priority a < Priority b)) q
  | _, _ => Res.panic Fault.indexOutOfRange q

/-- Swap satisfies the sort interface:
`q.collection[i], q.collection[j] = q.collection[j], q.collection[i]`. -/
def Swap (i j : Int) : Exec (Queue α) Unit := fun q =>
  match index q.collection i, index q.collection j with
  | some a, some b =>
    Res.ok () { q with collection := (q.collection.set i.toNat b).set j.toNat a }
  | _, _ => Res.panic Fault.indexOutOfRange q

/-- Push satisfies the heap interface: type-asserts `x.(Queueable)`, panics with
`QERR_NOT_QUEUEABLE` when that fails, and appends otherwise. -/
def Push (x : Value α) : Exec (Queue α) Unit := fun q =>
  match x with
  | Value.queueable y => Res.ok () { q with collection := q.collection ++ [y] }
  | Value.other _ => Res.panic (Fault.raised Error.QERR_NOT_QUEUEABLE) q

/-- Pop satisfies the heap interface: `x := q.collection[q.Len()-1]`,
`q.collection = q.collection[0 : q.Len()-1]`, `return x`. -/
def Pop : Exec (Queue α) (Value α) := fun q =>
  match index q.collection ((q.collection.length : Int) - 1) with
  | some x =>
    Res.ok (Value.queueable x)
      { q with collection := q.collection.take ((q.collection.length : Int) - 1).toNat }
  | none => Res.panic Fault.indexOutOfRange q

/-- Member returns the queue member at index `i`, as the pair `(m, err)` of named
results, each `nil` (here `none`) unless assigned. -/
def Member (i : Int) : Exec (Queue α) (Option α × Option Error) := fun q =>
  if i < (q.collection.length : Int) then
    match index q.collection i with
    | some m => Res.ok (some m, none) q
    | none => Res.panic Fault.indexOutOfRange q
  else Res.ok (none, some Error.QERR_OUT_OF_BOUNDS) q

/-- Collection returns the full collection. -/
def Collection : Exec (Queue α) (List α) := fun q => Res.ok q.collection q

/-! ## Package `container/heap` of the Go standard library, instantiated at `*Queue` -/

namespace heap

/-- The loop of `heap.up`:
`for { i := (j - 1) / 2; if i == j || !h.Less(j, i) { break }; h.Swap(i, j); j = i }`.
Go's `/` truncates toward zero. -/
def upLoop : Nat → Int → Exec (Queue α) Unit
  | 0, _ => fun q => Res.panic Fault.loopBound q
  | fuel + 1, j =>
    let i := (j - 1).tdiv 2
    if i = j then pure () else do
      let lt ← Less j i
      if !lt then pure () else do
        Swap i j
        upLoop fuel i

/-- The function `heap.up(h, j)`. -/
def up (j : Int) : Exec (Queue α) Unit := upLoop (j.toNat + 1) j

/-- The loop of `heap.down`, returning the final value of `i`:
`for { j1 := 2*i + 1; if j1 >= n || j1 < 0 { break }; j := j1;`
`if j2 := j1 + 1; j2 < n && h.Less(j2, j1) { j = j2 };`
`if !h.Less(j, i) { break }; h.Swap(i, j); i = j }`. -/
def downLoop : Nat → Int → Int → Exec (Queue α) Int
  | 0, _, _ => fun q => Res.panic Fault.loopBound q
  | fuel + 1, i, n =>
    let j1 := 2 * i + 1
    if j1 ≥ n ∨ j1 < 0 then pure i else do
      let j2 := j1 + 1
      let lt2 ← if j2 < n then Less j2 j1 else pure false
      let j := if lt2 then j2 else j1
      let lt ← Less j i
      if !lt then pure i else do
        Swap i j
        downLoop fuel j n

/-- The function `heap.down(h, i0, n)`, which returns `i > i0`. -/
def down (i0 n : Int) : Exec (Queue α) Bool := do
  let i ← downLoop (n.toNat + 1) i0 n
  pure (decide (i > i0))

/-- The loop of `heap.Init`: `for i := n/2 - 1; i >= 0; i-- { down(h, i, n) }`. -/
def initLoop : Nat → Int → Int → Exec (Queue α) Unit
  | 0, _, _ => fun q => Res.panic Fault.loopBound q
  | fuel + 1, i, n =>
    if i ≥ 0 then do
      let _ ← down i n
      initLoop fuel (i - 1) n
    else pure ()

/-- The function `heap.Init(h)`. -/
def Init : Exec (Queue α) Unit := do
  let n ← Len
  initLoop (n.toNat + 1) (n.tdiv 2 - 1) n

/-- The function `heap.Push(h, x)`: `h.Push(x); up(h, h.Len()-1)`. -/
def Push (x : Value α) : Exec (Queue α) Unit := do
  pqueue.Push x
  let n ← Len
  up (n - 1)

/-- The function `heap.Pop(h)`:
`n := h.Len() - 1; h.Swap(0, n); down(h, 0, n); return h.Pop()`. -/
def Pop : Exec (Queue α) (Value α) := do
  let len ← Len
  let n := len - 1
  Swap 0 n
  let _ ← down 0 n
  pqueue.Pop

/-- The function `heap.Remove(h, i)`:
`n := h.Len() - 1; if n != i { h.Swap(i, n); if !down(h, i, n) { up(h, i) } }; return h.Pop()`. -/
def Remove (i : Int) : Exec (Queue α) (Value α) := do
  let len ← Len
  let n := len - 1
  if n ≠ i then do
    Swap i n
    let moved ← down i n
    if !moved then up i else pure ()
  else pure ()
  pqueue.Pop

end heap

/-! ## Package `pqueue`, continued: the methods built on `container/heap` -/

/-- The method `heapify`: `if !q.heaped { heap.Init(q); q.heaped = true }`. -/
def heapify : Exec (Queue α) Unit := fun q =>
  if !q.heaped then
    (do heap.Init; fun q1 => Res.ok () { q1 with heaped := true }) q
  else Res.ok () q

/-- Add a single object to the queue: `q.heapify(); heap.Push(q, x)`. -/
def Add (x : α) : Exec (Queue α) Unit := do
  heapify
  heap.Push (Value.queueable x)

/-- Remove the highest priority item from the queue:
`q.heapify(); return heap.Pop(q)`. -/
def Remove : Exec (Queue α) (Value α) := do
  heapify
  heap.Pop

/-- AddSlice: `q.collection = append(q.collection, s...); q.heapify()`. -/
def AddSlice (s : List α) : Exec (Queue α) Unit := do
  (fun q => Res.ok () { q with collection := q.collection ++ s })
  heapify

/-! ## Drivers for sequences of operations -/

/-- Calling `Add` on each element of `xs` in order. -/
def addAll : List α → Exec (Queue α) Unit
  | [] => pure ()
  | x :: xs => do
    Add x
    addAll xs

/-- Calling `Remove()` exactly `k` times, collecting the returned values in order. -/
def removeN : Nat → Exec (Queue α) (List (Value α))
  | 0 => pure []
  | k + 1 => do
    let r ← Remove
    let rs ← removeN k
    pure (r :: rs)

/-- One step of a client that uses the queue as a heap: `q.Add(x)`, `q.Remove()` or
`heap.Remove(q, i)`. -/
inductive Op (α : Type) where
  | add (x : α)
  | remove
  | removeAt (i : Int)
deriving DecidableEq, Repr

/-- The call an `Op` stands for, its return value dropped. -/
def Op.run : Op α → Exec (Queue α) Unit
  | Op.add x => Add x
  | Op.remove => do
    let _ ← Remove
    pure ()
  | Op.removeAt i => do
    let _ ← heap.Remove i
    pure ()

/-- The condition under which an `Op` may be issued: `Remove()` on a non-empty queue,
`heap.Remove(q, i)` with `0 ≤ i < Len()`. -/
def Op.enabled : Op α → Queue α → Bool
  | Op.add _, _ => true
  | Op.remove, q => decide (0 < q.collection.length)
  | Op.removeAt i, q => decide (0 ≤ i ∧ i < (q.collection.length : Int))

/-- Outcomes of the operations of a sequence, run one after the other from `q`; the
run ends at the first panic. -/
def trace : List (Op α) → Queue α → List (Res (Queue α) Unit)
  | [], _ => []
  | op :: ops, q =>
    match op.run q with
    | Res.ok r q1 => Res.ok r q1 :: trace ops q1
    | Res.panic f q1 => [Res.panic f q1]

/-- Every operation of the sequence is enabled in the state in which it is issued
(nothing is required of what follows a panic). -/
def admissible : List (Op α) → Queue α → Bool
  | [], _ => true
  | op :: ops, q =>
    op.enabled q &&
      match op.run q with
      | Res.ok _ q1 => admissible ops q1
      | Res.panic _ _ => true

/-- Raw `Push` of each value of a list in order, as `initCollection` and the test
bodies of `pqueue_test.go` do. -/
def pushAll : List (Value α) → Exec (Queue α) Unit
  | [] => pure ()
  | x :: xs => do
    Push x
    pushAll xs

/-! ## Specification vocabulary -/

/-- The queue as a call left it, whether the call returned or panicked. -/
def Res.state {σ ρ : Type} : Res σ ρ → σ
  | Res.ok _ s => s
  | Res.panic _ s => s

/-- The outcome is a return or a genuine Go panic, not the exhaustion of a loop bound
of the model. -/
def NoBound {σ ρ : Type} : Res σ ρ → Prop
  | Res.ok _ _ => True
  | Res.panic f _ => f ≠ Fault.loopBound

/-- Priority of the element at position `i` of the storage (`0` past the end). -/
def keyAt (l : List α) (i : Nat) : Int :=
  match l[i]? with
  | some a => Priority a
  | none => 0

/-- The binary min-heap property on the positions below `n`, for parents at or above
`lo`: every such parent is no greater than each of its children `2p+1`, `2p+2`. -/
def HeapOn (l : List α) (lo n : Nat) : Prop :=
  ∀ p c, lo ≤ p → c < n → (c = 2 * p + 1 ∨ c = 2 * p + 2) → keyAt l p ≤ keyAt l c

/-- The binary min-heap property of a storage: for every index `i` and every child
index `c ∈ {2i+1, 2i+2}` with `c < len`, `priority(l[i]) ≤ priority(l[c])`. -/
def IsHeap (l : List α) : Prop :=
  ∀ i < l.length, ∀ c < l.length, (c = 2 * i + 1 ∨ c = 2 * i + 2) → keyAt l i ≤ keyAt l c

instance (l : List α) : Decidable (IsHeap l) := by
  unfold IsHeap
  infer_instance

/-- The storage is in fully ascending priority order, as `TestSort` checks it after
`sort.Sort(q)`: `Member(i-1).Priority() ≤ Member(i).Priority()` for `1 ≤ i < Len()`. -/
def Ascending (l : List α) : Prop :=
  ∀ i < l.length, 1 ≤ i → keyAt l (i - 1) ≤ keyAt l i

instance (l : List α) : Decidable (Ascending l) := by
  unfold Ascending
  infer_instance

/-- The priorities of a list are in non-decreasing order. -/
def NonDecreasing (l : List α) : Prop :=
  l.Pairwise (fun a b => Priority a ≤ Priority b)

/-! ## Pure list counterparts of the heap loops (proof devices) -/

/-- Exchange of positions `i` and `j` of a list (identity when out of range). -/
def swapL (l : List α) (i j : Nat) : List α :=
  match l[i]?, l[j]? with
  | some a, some b => (l.set i b).set j a
  | _, _ => l

/-- The child of `i` that sift-down compares with: the right one when it exists
below `n` and is strictly smaller than the left one, the left one otherwise. -/
def minChild (l : List α) (i n : Nat) : Nat :=
  if 2 * i + 2 < n ∧ keyAt l (2 * i + 2) < keyAt l (2 * i + 1) then 2 * i + 2 else 2 * i + 1

/-- Sift-down on a list: the storage and the final position. -/
def downL : Nat → List α → Nat → Nat → List α × Nat
  | 0, l, i, _ => (l, i)
  | fuel + 1, l, i, n =>
    if 2 * i + 1 ≥ n then (l, i)
    else if keyAt l (minChild l i n) < keyAt l i then
      downL fuel (swapL l i (minChild l i n)) (minChild l i n) n
    else (l, i)

/-- Sift-up on a list. -/
def upL : Nat → List α → Nat → List α
  | 0, l, _ => l
  | fuel + 1, l, j =>
    if (j - 1) / 2 = j then l
    else if keyAt l j < keyAt l ((j - 1) / 2) then upL fuel (swapL l ((j - 1) / 2) j) ((j - 1) / 2)
    else l

/-- Heap construction on a list: sift-down at positions `k - 1`, ..., `0`. -/
def initL : Nat → List α → Nat → List α
  | 0, l, _ => l
  | k + 1, l, n => initL k (downL (n + 1) l k n).1 n

/-- Storage after `heapify`: rebuilt when the flag is unset, untouched otherwise. -/
def heapL (q : Queue α) : List α :=
  if q.heaped then q.collection
  else initL (q.collection.length / 2) q.collection q.collection.length

/-- Storage after `heap.Push(q, x)`. -/
def pushL (l : List α) (x : α) : List α := upL (l.length + 1) (l ++ [x]) l.length

/-- Storage after `heap.Pop(q)`. -/
def popL (l : List α) : List α :=
  (downL l.length (swapL l 0 (l.length - 1)) 0 (l.length - 1)).1.take (l.length - 1)

/-- Storage after `heap.Remove(q, i)`. -/
def removeL (l : List α) (i : Nat) : List α :=
  if l.length - 1 = i then l.take (l.length - 1)
  else
    let d := downL l.length (swapL l i (l.length - 1)) i (l.length - 1)
    (if i < d.2 then d.1 else upL (i + 1) d.1 i).take (l.length - 1)

end pqueue

namespace pqueue

set_option linter.unusedSectionVars false
set_option linter.unusedVariables false

variable {α : Type} [Queueable α]

/-! ## Running `Exec` programs -/

section exec
variable {σ ρ τ : Type}

@[simp] theorem Exec.pure_run (r : ρ) (s : σ) : (pure r : Exec σ ρ) s = Res.ok r s := rfl

theorem Exec.bind_run (m : Exec σ ρ) (f : ρ → Exec σ τ) (s : σ) :
    (m >>= f) s = Exec.seq m f s := rfl

theorem Exec.seq_ok {m : Exec σ ρ} {f : ρ → Exec σ τ} {s s1 : σ} {r : ρ}
    (h : m s = Res.ok r s1) : (m >>= f) s = f r s1 := by
  simp [Exec.bind_run, Exec.seq, h]

theorem Exec.seq_panic {m : Exec σ ρ} {f : ρ → Exec σ τ} {s s1 : σ} {e : Fault}
    (h : m s = Res.panic e s1) : (m >>= f) s = Res.panic e s1 := by
  simp [Exec.bind_run, Exec.seq, h]

end exec

/-! ## Indexing and the primitive methods -/

theorem index_natCast (l : List α) (i : Nat) : index l (i : Int) = l[i]? := by
  simp [index]

theorem keyAt_of_getElem? {l : List α} {i : Nat} {a : α} (h : l[i]? = some a) :
    keyAt l i = Priority a := by
  simp [keyAt, h]

theorem Len_run (q : Queue α) : Len q = Res.ok (q.collection.length : Int) q := rfl

theorem Less_run (b : Bool) (l : List α) {i j : Nat} (hi : i < l.length) (hj : j < l.length) :
    Less (i : Int) (j : Int) (Queue.mk b l)
      = Res.ok (decide (keyAt l i < keyAt l j)) (Queue.mk b l) := by
  simp [Less, index_natCast, keyAt, List.getElem?_eq_getElem hi, List.getElem?_eq_getElem hj]

theorem Swap_run (b : Bool) (l : List α) {i j : Nat} (hi : i < l.length) (hj : j < l.length) :
    Swap (i : Int) (j : Int) (Queue.mk b l) = Res.ok () (Queue.mk b (swapL l i j)) := by
  simp [Swap, swapL, index_natCast, List.getElem?_eq_getElem hi, List.getElem?_eq_getElem hj]

theorem swapL_length (l : List α) (i j : Nat) : (swapL l i j).length = l.length := by
  unfold swapL
  split <;> simp

theorem parent_cast (j : Nat) : ((j : Int) - 1).tdiv 2 = (((j - 1) / 2 : Nat) : Int) := by
  cases j with
  | zero => rfl
  | succ k =>
    have : ((k + 1 : Nat) : Int) - 1 = (k : Int) := by push_cast; ring
    rw [this]
    exact (Int.ofNat_tdiv k 2).symm

theorem upLoop_run (b : Bool) : ∀ (fuel : Nat) (l : List α) (j : Nat),
    j < l.length → j < fuel →
    heap.upLoop fuel (j : Int) (Queue.mk b l) = Res.ok () (Queue.mk b (upL fuel l j)) := by
  intro fuel
  induction fuel with
  | zero => intro l j _ h; omega
  | succ f ih =>
    intro l j hj hf
    simp only [heap.upLoop, upL, parent_cast]
    by_cases h1 : (j - 1) / 2 = j
    · have h1' : (((j - 1) / 2 : Nat) : Int) = (j : Int) := by exact_mod_cast h1
      rw [if_pos h1', if_pos h1]; rfl
    · have h1' : ¬ (((j - 1) / 2 : Nat) : Int) = (j : Int) := by exact_mod_cast h1
      have hp : (j - 1) / 2 < j := by omega
      rw [if_neg h1', if_neg h1, Exec.seq_ok (Less_run b l hj (by omega))]
      by_cases h3 : keyAt l j < keyAt l ((j - 1) / 2)
      · simp only [h3, decide_True, Bool.not_true, if_true]
        rw [if_neg (by simp), Exec.seq_ok (Swap_run b l (by omega) hj)]
        exact ih _ _ (by rw [swapL_length]; omega) (by omega)
      · simp [h3]

theorem up_run (b : Bool) (l : List α) (j : Nat) (hj : j < l.length) :
    heap.up (j : Int) (Queue.mk b l) = Res.ok () (Queue.mk b (upL (j + 1) l j)) := by
  unfold heap.up
  simpa using upLoop_run b (j + 1) l j hj (by omega)

theorem downL_length (n : Nat) : ∀ (fuel : Nat) (l : List α) (i : Nat),
    (downL fuel l i n).1.length = l.length := by
  intro fuel
  induction fuel with
  | zero => intro l i; rfl
  | succ f ih =>
    intro l i
    simp only [downL]
    split
    · rfl
    · split
      · rw [ih, swapL_length]
      · rfl

theorem initL_length (n : Nat) : ∀ (k : Nat) (l : List α), (initL k l n).length = l.length := by
  intro k
  induction k with
  | zero => intro l; rfl
  | succ k ih => intro l; simp only [initL]; rw [ih, downL_length]

theorem downLoop_run (b : Bool) (n : Nat) : ∀ (fuel : Nat) (l : List α) (i : Nat),
    n ≤ l.length → n < fuel + i → 0 < fuel →
    heap.downLoop fuel (i : Int) (n : Int) (Queue.mk b l)
      = Res.ok (((downL fuel l i n).2 : Nat) : Int) (Queue.mk b (downL fuel l i n).1) := by
  intro fuel
  induction fuel with
  | zero => intro l i _ _ h; omega
  | succ f ih =>
    intro l i hn hf h0
    have e1 : (2 * (i : Int) + 1) = ((2 * i + 1 : Nat) : Int) := by push_cast; ring
    have e2 : (2 * (i : Int) + 1 + 1) = ((2 * i + 2 : Nat) : Int) := by push_cast; ring
    simp only [heap.downLoop, downL]
    by_cases h1 : 2 * i + 1 ≥ n
    · have h1' : (2 * (i : Int) + 1 ≥ n) := by omega
      simp [h1, h1']
    · have h1' : ¬ (2 * (i : Int) + 1 ≥ n ∨ 2 * (i : Int) + 1 < 0) := by omega
      rw [if_neg h1', if_neg h1]
      have tail : ∀ j : Nat, i < j → j < n →
          (do
            let lt ← Less (j : Int) (i : Int)
            if (!lt) = true then pure (i : Int)
            else do
              Swap (i : Int) (j : Int)
              heap.downLoop f (j : Int) (n : Int) : Exec (Queue α) Int) (Queue.mk b l)
          = Res.ok
              (((if keyAt l j < keyAt l i then downL f (swapL l i j) j n else (l, i)).2 : Nat) : Int)
              (Queue.mk b (if keyAt l j < keyAt l i then downL f (swapL l i j) j n else (l, i)).1) := by
        intro j hij hjn
        rw [Exec.seq_ok (Less_run b l (by omega) (by omega))]
        by_cases h3 : keyAt l j < keyAt l i
        · simp only [h3, decide_True, Bool.not_true, if_true]
          rw [if_neg (by simp), Exec.seq_ok (Swap_run b l (by omega) (by omega))]
          exact ih _ _ (by rw [swapL_length]; exact hn) (by omega) (by omega)
        · simp [h3]
      rw [e2, e1]
      by_cases h2 : 2 * i + 2 < n
      · have h2' : ((2 * i + 2 : Nat) : Int) < (n : Int) := by exact_mod_cast h2
        rw [if_pos h2', Exec.seq_ok (Less_run b l (by omega) (by omega))]
        by_cases h3 : keyAt l (2 * i + 2) < keyAt l (2 * i + 1)
        · simp only [h3, decide_True, if_true, h2, and_self, minChild]
          exact tail _ (by omega) h2
        · simp only [h3, decide_False, if_false, and_false, minChild, Bool.false_eq_true]
          exact tail _ (by omega) (by omega)
      · have h2' : ¬ ((2 * i + 2 : Nat) : Int) < (n : Int) := by exact_mod_cast h2
        rw [if_neg h2', Exec.seq_ok (Exec.pure_run false _)]
        simp only [h2, false_and, if_false, Bool.false_eq_true, minChild]
        exact tail _ (by omega) (by omega)
theorem down_run (b : Bool) (l : List α) (i n : Nat) (hn : n ≤ l.length) :
    heap.down (i : Int) (n : Int) (Queue.mk b l)
      = Res.ok (decide (i < (downL (n + 1) l i n).2)) (Queue.mk b (downL (n + 1) l i n).1) := by
  unfold heap.down
  rw [Exec.seq_ok (by simpa using downLoop_run b n (n + 1) l i hn (by omega) (by omega))]
  simp

theorem initLoop_run (b : Bool) (n : Nat) : ∀ (k fuel : Nat) (l : List α),
    n ≤ l.length → k < fuel →
    heap.initLoop fuel ((k : Int) - 1) (n : Int) (Queue.mk b l)
      = Res.ok () (Queue.mk b (initL k l n)) := by
  intro k
  induction k with
  | zero =>
    intro fuel l hn hf
    obtain ⟨f, rfl⟩ : ∃ f, fuel = f + 1 := ⟨fuel - 1, by omega⟩
    simp [heap.initLoop, initL]
  | succ k ih =>
    intro fuel l hn hf
    obtain ⟨f, rfl⟩ : ∃ f, fuel = f + 1 := ⟨fuel - 1, by omega⟩
    have e : ((k + 1 : Nat) : Int) - 1 = (k : Int) := by push_cast; ring
    simp only [heap.initLoop, initL, e]
    rw [if_pos (by omega), Exec.seq_ok (down_run b l k n hn)]
    exact ih f _ (by rw [downL_length]; exact hn) (by omega)

theorem Init_run (b : Bool) (l : List α) :
    heap.Init (Queue.mk b l) = Res.ok () (Queue.mk b (initL (l.length / 2) l l.length)) := by
  unfold heap.Init
  rw [Exec.seq_ok (Len_run _)]
  have e : ((l.length : Int)).tdiv 2 = ((l.length / 2 : Nat) : Int) :=
    (Int.ofNat_tdiv l.length 2).symm
  simp only [e]
  exact initLoop_run b l.length (l.length / 2) _ l (le_refl _) (by simp; omega)

/-! ## Exchanging two positions -/

theorem getElem?_swapL (l : List α) {i j : Nat} (hi : i < l.length) (hj : j < l.length)
    (m : Nat) :
    (swapL l i j)[m]? = if m = j then l[i]? else if m = i then l[j]? else l[m]? := by
  simp only [swapL, List.getElem?_eq_getElem hi, List.getElem?_eq_getElem hj]
  simp only [List.getElem?_set, List.length_set]
  by_cases h1 : m = j
  · subst h1; simp [hj]
  · by_cases h2 : m = i
    · subst h2; simp [hi, h1, Ne.symm h1]
    · simp [h1, h2, Ne.symm h1, Ne.symm h2]

theorem keyAt_swapL (l : List α) {i j : Nat} (hi : i < l.length) (hj : j < l.length)
    (m : Nat) :
    keyAt (swapL l i j) m
      = if m = j then keyAt l i else if m = i then keyAt l j else keyAt l m := by
  unfold keyAt
  rw [getElem?_swapL l hi hj]
  split_ifs <;> rfl

theorem boole_le_count [DecidableEq α] (l : List α) (i : Nat) (hi : i < l.length) (c : α) :
    (if l[i] == c then 1 else 0) ≤ l.count c := by
  by_cases h : l[i] = c
  · have : 0 < l.count c := List.count_pos_iff.2 (h ▸ List.getElem_mem _)
    simp only [h, beq_self_eq_true, if_true]
    omega
  · simp [h]

theorem swapL_perm (l : List α) (i j : Nat) : (swapL l i j).Perm l := by
  classical
  unfold swapL
  split
  · rename_i a b ha hb
    obtain ⟨hi, rfl⟩ := List.getElem?_eq_some_iff.1 ha
    obtain ⟨hj, rfl⟩ := List.getElem?_eq_some_iff.1 hb
    rw [List.perm_iff_count]
    intro c
    rw [List.count_set _ _ _ _ (by simpa using hj), List.count_set _ _ _ _ hi]
    have h1 := boole_le_count l i hi c
    have h2 := boole_le_count l j hj c
    by_cases hij : i = j
    · subst hij
      simp only [List.getElem_set_self]
      generalize (if (l[i] == c) = true then 1 else 0) = x at h1 ⊢
      omega
    · rw [List.getElem_set_ne hij]
      generalize (if (l[i] == c) = true then 1 else 0) = x at h1 ⊢
      generalize (if (l[j] == c) = true then 1 else 0) = y at h2 ⊢
      omega
  · exact List.Perm.refl _

/-! ## The smaller child -/

theorem minChild_spec (l : List α) (i n : Nat) (h : 2 * i + 1 < n) :
    (minChild l i n = 2 * i + 1 ∨ minChild l i n = 2 * i + 2) ∧ minChild l i n < n ∧
      ∀ c, c < n → (c = 2 * i + 1 ∨ c = 2 * i + 2) → keyAt l (minChild l i n) ≤ keyAt l c := by
  unfold minChild
  split
  · rename_i h2
    refine ⟨Or.inr rfl, h2.1, ?_⟩
    rintro c _ (rfl | rfl)
    · exact le_of_lt h2.2
    · exact le_refl _
  · rename_i h2
    refine ⟨Or.inl rfl, h, ?_⟩
    rintro c hc (rfl | rfl)
    · exact le_refl _
    · have : ¬ keyAt l (2 * i + 2) < keyAt l (2 * i + 1) := fun h3 => h2 ⟨hc, h3⟩
      exact not_lt.1 this

/-! ## Sift-down on lists -/

theorem downL_ge (n : Nat) : ∀ (fuel : Nat) (l : List α) (i : Nat),
    i ≤ (downL fuel l i n).2 := by
  intro fuel
  induction fuel with
  | zero => intro l i; exact le_refl _
  | succ f ih =>
    intro l i
    simp only [downL]
    split
    · exact le_refl _
    · rename_i h1
      split
      · have := (minChild_spec l i n (by omega)).1
        have := ih (swapL l i (minChild l i n)) (minChild l i n)
        omega
      · exact le_refl _

theorem downL_perm (n : Nat) : ∀ (fuel : Nat) (l : List α) (i : Nat),
    (downL fuel l i n).1.Perm l := by
  intro fuel
  induction fuel with
  | zero => intro l i; exact List.Perm.refl _
  | succ f ih =>
    intro l i
    simp only [downL]
    split
    · exact List.Perm.refl _
    · split
      · exact (ih _ _).trans (swapL_perm _ _ _)
      · exact List.Perm.refl _

theorem downL_frame (n : Nat) : ∀ (fuel : Nat) (l : List α) (i : Nat), n ≤ l.length →
    ∀ m, (m < i ∨ n ≤ m) → (downL fuel l i n).1[m]? = l[m]? := by
  intro fuel
  induction fuel with
  | zero => intro l i _ m _; rfl
  | succ f ih =>
    intro l i hn m hm
    simp only [downL]
    split
    · rfl
    · rename_i h1
      obtain ⟨hc, hlt, -⟩ := minChild_spec l i n (by omega)
      split
      · rw [ih _ _ (by rw [swapL_length]; exact hn) m (by omega),
          getElem?_swapL l (by omega) (by omega)]
        rw [if_neg (by omega), if_neg (by omega)]
      · rfl

theorem downL_heap (n lo : Nat) : ∀ (fuel : Nat) (l : List α) (i : Nat),
    n ≤ l.length → n < fuel + i →
    (∀ p c, lo ≤ p → p ≠ i → c ≠ i → c < n → (c = 2 * p + 1 ∨ c = 2 * p + 2) →
      keyAt l p ≤ keyAt l c) →
    (∀ p c, lo ≤ p → (i = 2 * p + 1 ∨ i = 2 * p + 2) → c < n → (c = 2 * i + 1 ∨ c = 2 * i + 2) →
      keyAt l p ≤ keyAt l c) →
    ((downL fuel l i n).2 = i → (downL fuel l i n).1 = l) ∧
    (∀ p c, lo ≤ p → c < n → (c = 2 * p + 1 ∨ c = 2 * p + 2) →
      (c = i → (downL fuel l i n).2 ≠ i) →
      keyAt (downL fuel l i n).1 p ≤ keyAt (downL fuel l i n).1 c) := by
  intro fuel
  induction fuel with
  | zero =>
    intro l i hn hf H1 H2
    refine ⟨fun _ => rfl, ?_⟩
    intro p c hp hc hch hci
    simp only [downL] at hci ⊢
    have hci' : c ≠ i := fun h => hci h rfl
    exact H1 p c hp (by omega) hci' hc hch
  | succ f ih =>
    intro l i hn hf H1 H2
    simp only [downL]
    split
    · rename_i h1
      refine ⟨fun _ => rfl, ?_⟩
      intro p c hp hc hch hci
      have hci' : c ≠ i := fun h => hci h rfl
      exact H1 p c hp (by omega) hci' hc hch
    · rename_i h1
      obtain ⟨hc, hlt, hmin⟩ := minChild_spec l i n (by omega)
      generalize minChild l i n = j at hc hlt hmin ⊢
      have hij : i < j := by omega
      split
      · rename_i h3
        have hi' : i < l.length := by omega
        have hj' : j < l.length := by omega
        have hk := keyAt_swapL l hi' hj'
        have IH := ih (swapL l i j) j (by rw [swapL_length]; exact hn) (by omega)
          (by
            intro p c hp hpj hcj hcn hch
            rw [hk p, hk c, if_neg hpj, if_neg hcj]
            by_cases hpi : p = i
            · subst hpi
              rw [if_pos rfl, if_neg (by omega)]
              exact hmin c hcn hch
            · rw [if_neg hpi]
              by_cases hci : c = i
              · subst hci
                rw [if_pos rfl]
                exact H2 p j hp hch hlt hc
              · rw [if_neg hci]
                exact H1 p c hp hpi hci hcn hch)
          (by
            intro p c hp hjp hcn hch
            have hpi : p = i := by omega
            subst hpi
            rw [hk p, hk c, if_neg (by omega), if_pos rfl, if_neg (by omega), if_neg (by omega)]
            exact H1 j c (by omega) (by omega) (by omega) hcn hch)
        have hge := downL_ge n f (swapL l i j) j
        refine ⟨fun h => by omega, ?_⟩
        intro p c hp hcn hch _
        by_cases hcj : c = j
        · by_cases hfin : (downL f (swapL l i j) j n).2 = j
          · have hpi : p = i := by omega
            rw [IH.1 hfin, hk p, hk c, if_pos hcj, hpi, if_neg (by omega), if_pos rfl]
            exact le_of_lt h3
          · exact IH.2 p c hp hcn hch (fun _ => hfin)
        · exact IH.2 p c hp hcn hch (fun h => absurd h hcj)
      · rename_i h3
        refine ⟨fun _ => rfl, ?_⟩
        intro p c hp hcn hch hci
        have hci' : c ≠ i := fun h => hci h rfl
        by_cases hpi : p = i
        · subst hpi
          exact le_trans (not_lt.1 h3) (hmin c hcn hch)
        · exact H1 p c hp hpi hci' hcn hch

/-! ## Sift-up on lists -/

theorem upL_length : ∀ (fuel : Nat) (l : List α) (j : Nat), (upL fuel l j).length = l.length := by
  intro fuel
  induction fuel with
  | zero => intro l j; rfl
  | succ f ih =>
    intro l j
    simp only [upL]
    split
    · rfl
    · split
      · rw [ih, swapL_length]
      · rfl

theorem upL_perm : ∀ (fuel : Nat) (l : List α) (j : Nat), (upL fuel l j).Perm l := by
  intro fuel
  induction fuel with
  | zero => intro l j; exact List.Perm.refl _
  | succ f ih =>
    intro l j
    simp only [upL]
    split
    · exact List.Perm.refl _
    · split
      · exact (ih _ _).trans (swapL_perm _ _ _)
      · exact List.Perm.refl _

theorem upL_frame : ∀ (fuel : Nat) (l : List α) (j : Nat), j < l.length →
    ∀ m, j < m → (upL fuel l j)[m]? = l[m]? := by
  intro fuel
  induction fuel with
  | zero => intro l j _ m _; rfl
  | succ f ih =>
    intro l j hj m hm
    simp only [upL]
    split
    · rfl
    · split
      · rw [ih _ _ (by rw [swapL_length]; omega) m (by omega),
          getElem?_swapL l (by omega) (by omega)]
        rw [if_neg (by omega), if_neg (by omega)]
      · rfl

theorem upL_heap (n : Nat) : ∀ (fuel : Nat) (l : List α) (j : Nat),
    n ≤ l.length → j < n → j < fuel →
    (∀ p c, c ≠ j → c < n → (c = 2 * p + 1 ∨ c = 2 * p + 2) → keyAt l p ≤ keyAt l c) →
    (∀ p c, (j = 2 * p + 1 ∨ j = 2 * p + 2) → c < n → (c = 2 * j + 1 ∨ c = 2 * j + 2) →
      keyAt l p ≤ keyAt l c) →
    HeapOn (upL fuel l j) 0 n := by
  intro fuel
  induction fuel with
  | zero => intro l j _ _ h; omega
  | succ f ih =>
    intro l j hn hj hf H1 H2
    simp only [upL]
    split
    · rename_i h1
      intro p c _ hcn hch
      exact H1 p c (by omega) hcn hch
    · rename_i h1
      have hjc : j = 2 * ((j - 1) / 2) + 1 ∨ j = 2 * ((j - 1) / 2) + 2 := by omega
      generalize (j - 1) / 2 = i at h1 hjc ⊢
      split
      · rename_i h3
        have hk := keyAt_swapL l (show i < l.length by omega) (show j < l.length by omega)
        apply ih (swapL l i j) i (by rw [swapL_length]; exact hn) (by omega) (by omega)
        · intro p c hci hcn hch
          rw [hk p, hk c]
          by_cases hcj : c = j
          · have hpi : p = i := by omega
            rw [if_pos hcj, hpi, if_neg (by omega), if_pos rfl]
            exact le_of_lt h3
          · rw [if_neg hcj, if_neg hci]
            by_cases hpj : p = j
            · rw [if_pos hpj]
              exact H2 i c hjc hcn (by omega)
            · rw [if_neg hpj]
              by_cases hpi : p = i
              · rw [if_pos hpi]
                exact le_trans (le_of_lt h3) (hpi ▸ H1 p c hcj hcn hch)
              · rw [if_neg hpi]
                exact H1 p c hcj hcn hch
        · intro p c hip hcn hch
          rw [hk p, hk c, if_neg (by omega), if_neg (by omega)]
          have hpi := H1 p i (by omega) (by omega) hip
          by_cases hcj : c = j
          · rw [if_pos hcj]
            exact hpi
          · rw [if_neg hcj, if_neg (by omega)]
            exact le_trans hpi (H1 i c hcj hcn hch)
      · rename_i h3
        intro p c _ hcn hch
        by_cases hcj : c = j
        · have hpi : p = i := by omega
          rw [hcj, hpi]
          exact not_lt.1 h3
        · exact H1 p c hcj hcn hch

/-! ## Heap construction on lists -/

theorem initL_perm (n : Nat) : ∀ (k : Nat) (l : List α), (initL k l n).Perm l := by
  intro k
  induction k with
  | zero => intro l; exact List.Perm.refl _
  | succ k ih => intro l; simp only [initL]; exact (ih _).trans (downL_perm _ _ _ _)

theorem initL_frame (n : Nat) : ∀ (k : Nat) (l : List α), n ≤ l.length →
    ∀ m, n ≤ m → (initL k l n)[m]? = l[m]? := by
  intro k
  induction k with
  | zero => intro l _ m _; rfl
  | succ k ih =>
    intro l hn m hm
    simp only [initL]
    rw [ih _ (by rw [downL_length]; exact hn) m hm, downL_frame n _ l k hn m (Or.inr hm)]

theorem initL_heap (n : Nat) : ∀ (k : Nat) (l : List α), n ≤ l.length →
    HeapOn l k n → HeapOn (initL k l n) 0 n := by
  intro k
  induction k with
  | zero => intro l _ h; exact h
  | succ k ih =>
    intro l hn h
    simp only [initL]
    apply ih _ (by rw [downL_length]; exact hn)
    have H := downL_heap n k (n + 1) l k hn (by omega)
      (fun p c hp hpk _ hcn hch => h p c (by omega) hcn hch)
      (fun p c hp hkp _ _ => by omega)
    intro p c hp hcn hch
    exact H.2 p c hp hcn hch (fun h => by omega)

theorem initL_isHeap (l : List α) : IsHeap (initL (l.length / 2) l l.length) := by
  have h := initL_heap l.length (l.length / 2) l (le_refl _)
    (fun p c hp hcn hch => by omega)
  intro i _ c hc hch
  rw [initL_length] at hc
  exact h i c (Nat.zero_le _) hc hch

/-! ## Facts about heaps -/

theorem isHeap_iff (l : List α) : IsHeap l ↔ HeapOn l 0 l.length := by
  constructor
  · intro h p c _ hc hch
    exact h p (by omega) c hc hch
  · intro h i _ c hc hch
    exact h i c (Nat.zero_le _) hc hch

theorem HeapOn.root_le {l : List α} {n : Nat} (h : HeapOn l 0 n) :
    ∀ m, m < n → keyAt l 0 ≤ keyAt l m := by
  intro m
  induction m using Nat.strong_induction_on with
  | _ m ih =>
    intro hm
    by_cases h0 : m = 0
    · subst h0; exact le_refl _
    · have hp : (m - 1) / 2 < m := by omega
      exact le_trans (ih _ hp (by omega)) (h ((m - 1) / 2) m (Nat.zero_le _) hm (by omega))

theorem keyAt_take (l : List α) (n m : Nat) (h : m < n) : keyAt (l.take n) m = keyAt l m := by
  unfold keyAt
  rw [List.getElem?_take_of_lt h]

theorem HeapOn.take {l : List α} {n : Nat} (h : HeapOn l 0 n) (hn : n ≤ l.length) :
    IsHeap (l.take n) := by
  intro i hi c hc hch
  rw [List.length_take, Nat.min_eq_left hn] at hi hc
  rw [keyAt_take l n i hi, keyAt_take l n c hc]
  exact h i c (Nat.zero_le _) hc hch

theorem keyAt_congr {l l' : List α} {m : Nat} (h : l'[m]? = l[m]?) : keyAt l' m = keyAt l m := by
  unfold keyAt
  rw [h]

theorem exists_keyAt_of_mem {l : List α} {y : α} (h : y ∈ l) :
    ∃ m, m < l.length ∧ keyAt l m = Priority y := by
  obtain ⟨m, hm, rfl⟩ := List.getElem_of_mem h
  exact ⟨m, hm, keyAt_of_getElem? (List.getElem?_eq_getElem hm)⟩

/-! ## The operations in terms of their list counterparts -/

theorem heapify_run (q : Queue α) : heapify q = Res.ok () (Queue.mk true (heapL q)) := by
  obtain ⟨b, l⟩ := q
  cases b with
  | true => simp [heapify, heapL]
  | false =>
    simp only [heapify, heapL, Bool.not_false, if_true]
    rw [Exec.seq_ok (Init_run false l)]
    simp

theorem Push_run (b : Bool) (l : List α) (x : α) :
    Push (Value.queueable x) (Queue.mk b l) = Res.ok () (Queue.mk b (l ++ [x])) := rfl

theorem Pop_run (b : Bool) (l : List α) (x : α) (n : Nat) (hn : n + 1 = l.length)
    (hx : l[n]? = some x) :
    Pop (Queue.mk b l) = Res.ok (Value.queueable x) (Queue.mk b (l.take n)) := by
  have e : (l.length : Int) - 1 = ((n : Nat) : Int) := by omega
  simp only [Pop, e, index_natCast, hx, Int.toNat_ofNat]

theorem heapPush_run (b : Bool) (l : List α) (x : α) :
    heap.Push (Value.queueable x) (Queue.mk b l) = Res.ok () (Queue.mk b (pushL l x)) := by
  unfold heap.Push
  rw [Exec.seq_ok (Push_run b l x), Exec.seq_ok (Len_run _)]
  have e : (((Queue.mk b (l ++ [x])).collection.length : Nat) : Int) - 1
      = ((l.length : Nat) : Int) := by simp
  rw [e]
  simpa [pushL] using up_run b (l ++ [x]) l.length (by simp)

theorem heapPop_run (b : Bool) (l : List α) (x : α) (hx : l[0]? = some x) :
    heap.Pop (Queue.mk b l) = Res.ok (Value.queueable x) (Queue.mk b (popL l)) := by
  have hl : 0 < l.length := (List.getElem?_eq_some_iff.1 hx).1
  obtain ⟨n, hn⟩ : ∃ n, n + 1 = l.length := ⟨l.length - 1, by omega⟩
  have e : (l.length : Int) - 1 = ((n : Nat) : Int) := by omega
  have hn' : l.length - 1 = n := by omega
  unfold heap.Pop
  rw [Exec.seq_ok (Len_run _)]
  simp only [e]
  have sw := Swap_run b l (show 0 < l.length by omega) (show n < l.length by omega)
  rw [Nat.cast_zero] at sw
  rw [Exec.seq_ok sw]
  have dn := down_run b (swapL l 0 n) 0 n (by rw [swapL_length]; omega)
  rw [Nat.cast_zero] at dn
  rw [Exec.seq_ok dn]
  have hlen : n + 1 = (downL (n + 1) (swapL l 0 n) 0 n).1.length := by
    rw [downL_length, swapL_length]; exact hn
  have hlast : (downL (n + 1) (swapL l 0 n) 0 n).1[n]? = some x := by
    rw [downL_frame n _ _ 0 (by rw [swapL_length]; omega) n (Or.inr (le_refl _)),
      getElem?_swapL l (by omega) (by omega), if_pos rfl, hx]
  rw [Pop_run b _ x n hlen hlast]
  simp only [popL, ← hn, Nat.add_sub_cancel]

theorem heapRemove_run (b : Bool) (l : List α) (i : Nat) (x : α) (hx : l[i]? = some x) :
    heap.Remove (i : Int) (Queue.mk b l) = Res.ok (Value.queueable x) (Queue.mk b (removeL l i)) := by
  have hi : i < l.length := (List.getElem?_eq_some_iff.1 hx).1
  obtain ⟨n, hn⟩ : ∃ n, n + 1 = l.length := ⟨l.length - 1, by omega⟩
  have e : (l.length : Int) - 1 = ((n : Nat) : Int) := by omega
  have hn' : l.length - 1 = n := by omega
  have hl : l.length = n + 1 := hn.symm
  unfold heap.Remove
  rw [Exec.seq_ok (Len_run _)]
  simp only [e, removeL, hn']
  by_cases hni : n = i
  · subst hni
    rw [if_neg (by simp), if_pos rfl, Exec.seq_ok (Exec.pure_run _ _)]
    exact Pop_run b l x n hn hx
  · have hni' : (n : Int) ≠ (i : Int) := by exact_mod_cast hni
    rw [if_pos hni', if_neg hni, hl]
    have hlen2 : n ≤ (swapL l i n).length := by rw [swapL_length]; omega
    have hfr : (downL (n + 1) (swapL l i n) i n).1[n]? = some x := by
      rw [downL_frame n _ _ i hlen2 n (Or.inr (le_refl _)),
        getElem?_swapL l (by omega) (by omega), if_pos rfl, hx]
    have hdl : n + 1 = (downL (n + 1) (swapL l i n) i n).1.length := by
      rw [downL_length, swapL_length]; exact hn
    rw [Exec.seq_ok (Swap_run b l (by omega) (by omega)),
      Exec.seq_ok (down_run b (swapL l i n) i n hlen2)]
    by_cases hm : i < (downL (n + 1) (swapL l i n) i n).2
    · simp only [hm, decide_True, Bool.not_true, if_true]
      rw [if_neg (by simp), Exec.seq_ok (Exec.pure_run _ _)]
      exact Pop_run b _ x n hdl hfr
    · simp only [hm, decide_False, Bool.not_false, if_true, if_false]
      rw [Exec.seq_ok (up_run b _ i (by omega))]
      refine Pop_run b _ x n ?_ ?_
      · rw [upL_length]; exact hdl
      · rw [upL_frame _ _ i (by omega) n (by omega)]; exact hfr

theorem Add_run (q : Queue α) (x : α) :
    Add x q = Res.ok () (Queue.mk true (pushL (heapL q) x)) := by
  unfold Add
  rw [Exec.seq_ok (heapify_run q)]
  exact heapPush_run true _ x

theorem Remove_run (q : Queue α) (x : α) (hx : (heapL q)[0]? = some x) :
    Remove q = Res.ok (Value.queueable x) (Queue.mk true (popL (heapL q))) := by
  unfold Remove
  rw [Exec.seq_ok (heapify_run q)]
  exact heapPop_run true _ x hx

theorem AddSlice_run (q : Queue α) (s : List α) :
    AddSlice s q
      = Res.ok () (Queue.mk true (heapL (Queue.mk q.heaped (q.collection ++ s)))) := by
  exact (Exec.seq_ok rfl).trans (heapify_run _)

/-! ## Properties of the list counterparts -/

theorem cons_take_perm (l : List α) (n : Nat) (x : α) (hn : n + 1 = l.length)
    (hx : l[n]? = some x) : (x :: l.take n).Perm l := by
  have h : l.take n ++ [x] = l := by
    have h1 : l.take (n + 1) = l.take n ++ l[n]?.toList := List.take_succ
    rw [hx, List.take_of_length_le (by omega)] at h1
    exact h1.symm
  have h2 : (l.take n ++ [x]).Perm l := by rw [h]
  exact (List.perm_append_singleton x (l.take n)).symm.trans h2

theorem heapL_perm (q : Queue α) : (heapL q).Perm q.collection := by
  unfold heapL
  split
  · exact List.Perm.refl _
  · exact initL_perm _ _ _

theorem heapL_isHeap (q : Queue α) (h : q.heaped = false ∨ IsHeap q.collection) :
    IsHeap (heapL q) := by
  unfold heapL
  split
  · rename_i hb
    rcases h with h | h
    · rw [hb] at h; exact absurd h (by simp)
    · exact h
  · exact initL_isHeap _

theorem heapL_of_heaped (q : Queue α) (h : q.heaped = true) : heapL q = q.collection := by
  simp [heapL, h]

theorem keyAt_append_left (l : List α) (x : α) (m : Nat) (h : m < l.length) :
    keyAt (l ++ [x]) m = keyAt l m := by
  unfold keyAt
  rw [List.getElem?_append_left h]

theorem pushL_perm (l : List α) (x : α) : (pushL l x).Perm (x :: l) :=
  (upL_perm _ _ _).trans (List.perm_append_singleton x l)

theorem pushL_isHeap (l : List α) (x : α) (h : IsHeap l) : IsHeap (pushL l x) := by
  rw [isHeap_iff]
  have hlen : (pushL l x).length = l.length + 1 := by simp [pushL, upL_length]
  rw [hlen]
  refine upL_heap (l.length + 1) _ _ _ (by simp) (by omega) (by omega) ?_ ?_
  · intro p c hc hcn hch
    rw [keyAt_append_left l x p (by omega), keyAt_append_left l x c (by omega)]
    exact h p (by omega) c (by omega) hch
  · intro p c _ hcn hch
    omega

theorem popL_perm (l : List α) (x : α) (hx : l[0]? = some x) : (x :: popL l).Perm l := by
  have hl : 0 < l.length := (List.getElem?_eq_some_iff.1 hx).1
  obtain ⟨n, hn⟩ : ∃ n, n + 1 = l.length := ⟨l.length - 1, by omega⟩
  simp only [popL, ← hn, Nat.add_sub_cancel]
  have hlen2 : n ≤ (swapL l 0 n).length := by rw [swapL_length]; omega
  refine (cons_take_perm _ n x (by rw [downL_length, swapL_length]; exact hn) ?_).trans
    ((downL_perm _ _ _ _).trans (swapL_perm _ _ _))
  rw [downL_frame n _ _ 0 hlen2 n (Or.inr (le_refl _)),
    getElem?_swapL l (by omega) (by omega), if_pos rfl, hx]

theorem popL_isHeap (l : List α) (h : IsHeap l) : IsHeap (popL l) := by
  by_cases hl : l.length = 0
  · have : l = [] := List.length_eq_zero.1 hl
    subst this
    intro i hi; simp [popL] at hi
  obtain ⟨n, hn⟩ : ∃ n, n + 1 = l.length := ⟨l.length - 1, by omega⟩
  simp only [popL, ← hn, Nat.add_sub_cancel]
  have hlen2 : n ≤ (swapL l 0 n).length := by rw [swapL_length]; omega
  have hk := keyAt_swapL l (show 0 < l.length by omega) (show n < l.length by omega)
  have H := downL_heap n 0 (n + 1) (swapL l 0 n) 0 hlen2 (by omega)
    (by
      intro p c _ hp hc hcn hch
      rw [hk p, hk c, if_neg (by omega), if_neg hp, if_neg (by omega), if_neg hc]
      exact h p (by omega) c (by omega) hch)
    (by intro p c _ hp; omega)
  refine HeapOn.take ?_ (by rw [downL_length, swapL_length]; omega)
  intro p c hp hcn hch
  exact H.2 p c hp hcn hch (fun h0 => by omega)

theorem isHeap_root_le (l : List α) (h : IsHeap l) (x y : α) (hx : l[0]? = some x)
    (hy : y ∈ l) : Priority x ≤ Priority y := by
  obtain ⟨m, hm, hk⟩ := exists_keyAt_of_mem hy
  rw [← hk, ← keyAt_of_getElem? hx]
  exact HeapOn.root_le ((isHeap_iff l).1 h) m hm

theorem removeL_perm (l : List α) (i : Nat) (x : α) (hx : l[i]? = some x) :
    (x :: removeL l i).Perm l := by
  have hi : i < l.length := (List.getElem?_eq_some_iff.1 hx).1
  obtain ⟨n, hn⟩ : ∃ n, n + 1 = l.length := ⟨l.length - 1, by omega⟩
  simp only [removeL, ← hn, Nat.add_sub_cancel]
  split
  · rename_i hni
    subst hni
    exact cons_take_perm l n x hn hx
  · rename_i hni
    have hlen2 : n ≤ (swapL l i n).length := by rw [swapL_length]; omega
    have hfr : (downL (n + 1) (swapL l i n) i n).1[n]? = some x := by
      rw [downL_frame n _ _ i hlen2 n (Or.inr (le_refl _)),
        getElem?_swapL l (by omega) (by omega), if_pos rfl, hx]
    have hdl : n + 1 = (downL (n + 1) (swapL l i n) i n).1.length := by
      rw [downL_length, swapL_length]; exact hn
    have hp : (downL (n + 1) (swapL l i n) i n).1.Perm l :=
      (downL_perm _ _ _ _).trans (swapL_perm _ _ _)
    split
    · exact (cons_take_perm _ n x hdl hfr).trans hp
    · refine (cons_take_perm _ n x (by rw [upL_length]; exact hdl) ?_).trans
        ((upL_perm _ _ _).trans hp)
      rw [upL_frame _ _ i (by omega) n (by omega)]; exact hfr

theorem removeL_isHeap (l : List α) (i : Nat) (hi : i < l.length) (h : IsHeap l) :
    IsHeap (removeL l i) := by
  obtain ⟨n, hn⟩ : ∃ n, n + 1 = l.length := ⟨l.length - 1, by omega⟩
  simp only [removeL, ← hn, Nat.add_sub_cancel]
  have h0 := (isHeap_iff l).1 h
  split
  · refine HeapOn.take ?_ (by omega)
    intro p c hp hcn hch
    exact h0 p c hp (by omega) hch
  · rename_i hni
    have hlen2 : n ≤ (swapL l i n).length := by rw [swapL_length]; omega
    have hk := keyAt_swapL l (show i < l.length by omega) (show n < l.length by omega)
    have hdl : (downL (n + 1) (swapL l i n) i n).1.length = n + 1 := by
      rw [downL_length, swapL_length]; exact hn.symm
    have G : ∀ p c, (i = 2 * p + 1 ∨ i = 2 * p + 2) → c < n → (c = 2 * i + 1 ∨ c = 2 * i + 2) →
        keyAt (swapL l i n) p ≤ keyAt (swapL l i n) c := by
      intro p c hip hcn hch
      rw [hk p, hk c, if_neg (by omega), if_neg (by omega), if_neg (by omega), if_neg (by omega)]
      exact le_trans (h0 p i (Nat.zero_le _) (by omega) hip) (h0 i c (Nat.zero_le _) (by omega) hch)
    have H := downL_heap n 0 (n + 1) (swapL l i n) i hlen2 (by omega)
      (by
        intro p c _ hp hc hcn hch
        rw [hk p, hk c, if_neg (by omega), if_neg hp, if_neg (by omega), if_neg hc]
        exact h0 p c (Nat.zero_le _) (by omega) hch)
      (fun p c _ => G p c)
    split
    · rename_i hm
      refine HeapOn.take ?_ (by omega)
      intro p c hp hcn hch
      exact H.2 p c hp hcn hch (fun _ => by omega)
    · rename_i hm
      have hge := downL_ge n (n + 1) (swapL l i n) i
      have hfix : (downL (n + 1) (swapL l i n) i n).2 = i := by omega
      have heq := H.1 hfix
      refine HeapOn.take ?_ (by rw [upL_length]; omega)
      refine upL_heap n _ _ _ (by omega) (by omega) (by omega) ?_ ?_
      · intro p c hci hcn hch
        exact H.2 p c (Nat.zero_le _) hcn hch (fun h => absurd h hci)
      · rw [heq]
        exact G

/-! ## Faults -/

theorem index_none (l : List α) (i : Int) (h : i < 0 ∨ (l.length : Int) ≤ i) :
    index l i = none := by
  unfold index
  split
  · rfl
  · rw [List.getElem?_eq_none]
    omega

theorem index_some (l : List α) (i : Int) (h0 : 0 ≤ i) (h : i < (l.length : Int)) :
    ∃ m, index l i = some m ∧ l[i.toNat]? = some m := by
  have hlt : i.toNat < l.length := by omega
  refine ⟨l[i.toNat], ?_, List.getElem?_eq_getElem hlt⟩
  unfold index
  rw [if_neg (by omega), List.getElem?_eq_getElem hlt]

theorem Swap_panic (q : Queue α) (i j : Int) (h : index q.collection i = none) :
    Swap i j q = Res.panic Fault.indexOutOfRange q := by
  simp [Swap, h]

theorem Pop_panic (q : Queue α) (h : q.collection = []) :
    Pop q = Res.panic Fault.indexOutOfRange q := by
  simp [Pop, h, index]

theorem heapPop_panic (q : Queue α) (h : q.collection = []) :
    heap.Pop q = Res.panic Fault.indexOutOfRange q := by
  unfold heap.Pop
  rw [Exec.seq_ok (Len_run q)]
  exact Exec.seq_panic (Swap_panic q _ _ (by simp [h, index]))

theorem Remove_panic (q : Queue α) (h : q.collection = []) :
    Remove q = Res.panic Fault.indexOutOfRange (Queue.mk true []) := by
  have hl : heapL q = [] := by
    simp [heapL, h, initL]
  unfold Remove
  rw [Exec.seq_ok (heapify_run q), hl]
  exact heapPop_panic _ rfl

theorem heapRemove_panic (q : Queue α) (i : Int)
    (h : i < 0 ∨ (q.collection.length : Int) ≤ i) :
    heap.Remove i q = Res.panic Fault.indexOutOfRange q := by
  unfold heap.Remove
  rw [Exec.seq_ok (Len_run q)]
  by_cases hn : (q.collection.length : Int) - 1 = i
  · have hl : q.collection = [] := List.length_eq_zero.1 (by omega)
    simp only [hn, ne_eq, not_true_eq_false, if_false]
    rw [Exec.seq_ok (Exec.pure_run _ _)]
    exact Pop_panic q hl
  · simp only [ne_eq, hn, not_false_eq_true, if_true]
    exact Exec.seq_panic (Swap_panic q _ _ (index_none _ _ h))

/-! ## Behaviour of the operations -/

theorem Add_ok (q : Queue α) (x : α) :
    ∃ q', Add x q = Res.ok () q' ∧ q'.heaped = true ∧ q'.collection.Perm (x :: q.collection) ∧
      ((q.heaped = false ∨ IsHeap q.collection) → IsHeap q'.collection) :=
  ⟨_, Add_run q x, rfl, (pushL_perm _ x).trans ((heapL_perm q).cons x),
    fun h => pushL_isHeap _ x (heapL_isHeap q h)⟩

theorem Remove_ok (q : Queue α) (hne : q.collection ≠ []) :
    ∃ r q', Remove q = Res.ok (Value.queueable r) q' ∧ q'.heaped = true ∧
      (r :: q'.collection).Perm q.collection ∧
      ((q.heaped = false ∨ IsHeap q.collection) →
        IsHeap q'.collection ∧ ∀ y ∈ q.collection, Priority r ≤ Priority y) := by
  have hlen : 0 < (heapL q).length := by
    rw [(heapL_perm q).length_eq]
    exact List.length_pos.2 hne
  have hx : (heapL q)[0]? = some (heapL q)[0] := List.getElem?_eq_getElem hlen
  refine ⟨(heapL q)[0], _, Remove_run q _ hx, rfl,
    (popL_perm _ _ hx).trans (heapL_perm q), fun h => ⟨popL_isHeap _ (heapL_isHeap q h), ?_⟩⟩
  intro y hy
  exact isHeap_root_le _ (heapL_isHeap q h) _ y hx ((heapL_perm q).mem_iff.2 hy)

theorem heapRemove_ok (q : Queue α) (i : Int) (h0 : 0 ≤ i)
    (hi : i < (q.collection.length : Int)) :
    ∃ r q', heap.Remove i q = Res.ok (Value.queueable r) q' ∧ index q.collection i = some r ∧
      q'.heaped = q.heaped ∧ (r :: q'.collection).Perm q.collection ∧
      (IsHeap q.collection → IsHeap q'.collection) := by
  obtain ⟨b, l⟩ := q
  obtain ⟨m, hm, hm'⟩ := index_some l i h0 hi
  have hrun := heapRemove_run b l i.toNat m hm'
  rw [Int.toNat_of_nonneg h0] at hrun
  exact ⟨m, _, hrun, hm, rfl, removeL_perm l _ m hm',
    fun h => removeL_isHeap l _ (List.getElem?_eq_some_iff.1 hm').1 h⟩

theorem addAll_ok : ∀ (xs : List α) (q : Queue α), (q.heaped = false ∨ IsHeap q.collection) →
    ∃ q', addAll xs q = Res.ok () q' ∧ q'.collection.Perm (xs ++ q.collection) ∧
      (q'.heaped = false ∨ IsHeap q'.collection) := by
  intro xs
  induction xs with
  | nil => intro q h; exact ⟨q, rfl, List.Perm.refl _, h⟩
  | cons x xs ih =>
    intro q h
    obtain ⟨q1, h1, _, hp1, hh1⟩ := Add_ok q x
    obtain ⟨q2, h2, hp2, hh2⟩ := ih q1 (Or.inr (hh1 h))
    refine ⟨q2, ?_, ?_, hh2⟩
    · simp only [addAll]
      rw [Exec.seq_ok h1]
      exact h2
    · refine hp2.trans ?_
      refine ((List.Perm.refl xs).append hp1).trans ?_
      simp only [List.cons_append]
      exact List.perm_middle

theorem removeN_ok : ∀ (k : Nat) (q : Queue α), q.collection.length = k →
    (q.heaped = false ∨ IsHeap q.collection) →
    ∃ out q', removeN k q = Res.ok (out.map Value.queueable) q' ∧ out.Perm q.collection ∧
      NonDecreasing out ∧ q'.collection = [] := by
  intro k
  induction k with
  | zero =>
    intro q hk _
    exact ⟨[], q, rfl, by rw [List.length_eq_zero.1 hk], List.Pairwise.nil,
      List.length_eq_zero.1 hk⟩
  | succ k ih =>
    intro q hk h
    have hne : q.collection ≠ [] := by
      intro h0; rw [h0] at hk; simp at hk
    obtain ⟨r, q1, h1, hb1, hp1, hh1⟩ := Remove_ok q hne
    obtain ⟨hheap, hmin⟩ := hh1 h
    have hk1 : q1.collection.length = k := by
      have := hp1.length_eq
      simp only [List.length_cons] at this
      omega
    obtain ⟨out, q2, h2, hp2, hs2, he2⟩ := ih q1 hk1 (Or.inr hheap)
    refine ⟨r :: out, q2, ?_, (hp2.cons r).trans hp1, ?_, he2⟩
    · simp only [removeN]
      rw [Exec.seq_ok h1, Exec.seq_ok h2]
      rfl
    · refine List.Pairwise.cons ?_ hs2
      intro y hy
      exact hmin y (hp1.subset (List.mem_cons_of_mem r (hp2.subset hy)))

theorem trace_ok : ∀ (ops : List (Op α)) (q : Queue α), IsHeap q.collection →
    admissible ops q = true →
    (trace ops q).length = ops.length ∧
      ∀ o ∈ trace ops q, ∃ q', o = Res.ok () q' ∧ IsHeap q'.collection := by
  intro ops
  induction ops with
  | nil => intro q _ _; exact ⟨rfl, fun o ho => by simp [trace] at ho⟩
  | cons op ops ih =>
    intro q hq hadm
    have step : op.enabled q = true → ∃ q1, op.run q = Res.ok () q1 ∧ IsHeap q1.collection := by
      intro hen
      cases op with
      | add x =>
        obtain ⟨q1, h1, _, _, hh1⟩ := Add_ok q x
        exact ⟨q1, h1, hh1 (Or.inr hq)⟩
      | remove =>
        have hne : q.collection ≠ [] := by
          have : 0 < q.collection.length := by simpa [Op.enabled] using hen
          exact List.length_pos.1 this
        obtain ⟨r, q1, h1, _, _, hh1⟩ := Remove_ok q hne
        refine ⟨q1, ?_, (hh1 (Or.inr hq)).1⟩
        simp only [Op.run]
        rw [Exec.seq_ok h1]; rfl
      | removeAt i =>
        have hi : 0 ≤ i ∧ i < (q.collection.length : Int) := by simpa [Op.enabled] using hen
        obtain ⟨r, q1, h1, _, _, _, hh1⟩ := heapRemove_ok q i hi.1 hi.2
        refine ⟨q1, ?_, hh1 hq⟩
        simp only [Op.run]
        rw [Exec.seq_ok h1]; rfl
    simp only [admissible, Bool.and_eq_true] at hadm
    obtain ⟨q1, h1, hh1⟩ := step hadm.1
    have hadm2 := hadm.2
    simp only [h1] at hadm2
    obtain ⟨hl, hall⟩ := ih q1 hh1 hadm2
    simp only [trace, h1, List.length_cons, hl, List.mem_cons, true_and]
    rintro o (rfl | ho)
    · exact ⟨q1, rfl, hh1⟩
    · exact hall o ho

/-! ## The loop bounds are never exhausted -/

theorem noBound_seq {σ ρ τ : Type} {m : Exec σ ρ} {f : ρ → Exec σ τ} {s : σ}
    (h1 : NoBound (m s)) (h2 : ∀ r s1, m s = Res.ok r s1 → NoBound (f r s1)) :
    NoBound ((m >>= f) s) := by
  cases hm : m s with
  | ok r s1 => rw [Exec.seq_ok hm]; exact h2 r s1 hm
  | panic e s1 =>
    rw [Exec.seq_panic hm]
    rw [hm] at h1
    exact h1

theorem noBound_ok {σ ρ : Type} (r : ρ) (s : σ) : NoBound (Res.ok r s) := trivial

theorem noBound_Less (i j : Int) (q : Queue α) : NoBound (Less i j q) := by
  unfold Less
  split
  · trivial
  · intro h; exact Fault.noConfusion h

theorem noBound_Swap (i j : Int) (q : Queue α) : NoBound (Swap i j q) := by
  unfold Swap
  split
  · trivial
  · intro h; exact Fault.noConfusion h

theorem noBound_Pop (q : Queue α) : NoBound (Pop q) := by
  unfold Pop
  split
  · trivial
  · intro h; exact Fault.noConfusion h

theorem noBound_Push (x : Value α) (q : Queue α) : NoBound (Push x q) := by
  unfold Push
  split
  · trivial
  · intro h; exact Fault.noConfusion h

theorem noBound_upLoop : ∀ (fuel : Nat) (j : Int) (q : Queue α), 0 < fuel → j < (fuel : Int) →
    NoBound (heap.upLoop fuel j q) := by
  intro fuel
  induction fuel with
  | zero => intro j q h; omega
  | succ f ih =>
    intro j q _ hj
    simp only [heap.upLoop]
    split
    · trivial
    · rename_i hne
      refine noBound_seq (noBound_Less _ _ q) ?_
      intro lt q1 hlt
      split
      · trivial
      · refine noBound_seq (noBound_Swap _ _ q1) ?_
        intro _ q2 hsw
        have hj0 : 0 ≤ j := by
          by_contra hneg
          have : index q.collection j = none := index_none _ _ (Or.inl (by omega))
          simp [Less, this] at hlt
        have hp : (j - 1).tdiv 2 < j := by
          have h2 := parent_cast j.toNat
          rw [Int.toNat_of_nonneg hj0] at h2
          rw [h2] at hne ⊢
          omega
        have hp0 : 0 ≤ (j - 1).tdiv 2 := by
          have h2 := parent_cast j.toNat
          rw [Int.toNat_of_nonneg hj0] at h2
          rw [h2]
          omega
        exact ih _ q2 (by omega) (by omega)

theorem noBound_up (j : Int) (q : Queue α) : NoBound (heap.up j q) :=
  noBound_upLoop _ j q (by omega) (by omega)

theorem noBound_downLoop (n : Int) : ∀ (fuel : Nat) (i : Int) (q : Queue α), 0 < fuel →
    n - i < (fuel : Int) → NoBound (heap.downLoop fuel i n q) := by
  intro fuel
  induction fuel with
  | zero => intro i q h; omega
  | succ f ih =>
    intro i q _ hf
    simp only [heap.downLoop]
    split
    · trivial
    · rename_i h1
      have tail : ∀ (j : Int) (q1 : Queue α), i < j → j < n →
          NoBound ((do
            let lt ← Less j i
            if (!lt) = true then pure i
            else do
              Swap i j
              heap.downLoop f j n : Exec (Queue α) Int) q1) := by
        intro j q1 hij hjn
        refine noBound_seq (noBound_Less _ _ q1) ?_
        intro lt q2 _
        split
        · trivial
        · refine noBound_seq (noBound_Swap _ _ q2) ?_
          intro _ q3 _
          exact ih j q3 (by omega) (by omega)
      split
      · rename_i h2
        refine noBound_seq (noBound_Less _ _ q) ?_
        intro lt2 q1 _
        cases lt2 with
        | true => exact tail _ q1 (by omega) (by simpa using h2)
        | false => exact tail _ q1 (by omega) (by omega)
      · refine noBound_seq (noBound_ok _ _) ?_
        intro lt2 q1 hlt2
        have : lt2 = false := by
          simp only [Exec.pure_run] at hlt2
          injection hlt2 with h _
          exact h.symm
        subst this
        simp only [Bool.false_eq_true, if_false]
        exact tail (2 * i + 1) q1 (by omega) (by omega)

theorem noBound_down (i n : Int) (q : Queue α) : NoBound (heap.down i n q) := by
  unfold heap.down
  refine noBound_seq ?_ (fun _ _ _ => trivial)
  by_cases hn : 0 ≤ n
  · by_cases hi : 0 ≤ i
    · exact noBound_downLoop n _ i q (by omega) (by omega)
    · simp only [heap.downLoop]
      rw [if_pos (by omega)]
      trivial
  · simp only [heap.downLoop]
    by_cases h : 2 * i + 1 ≥ n ∨ 2 * i + 1 < 0
    · rw [if_pos h]; trivial
    · omega

theorem noBound_initLoop (n : Int) : ∀ (fuel : Nat) (i : Int) (q : Queue α), 0 < fuel →
    i + 1 < (fuel : Int) → NoBound (heap.initLoop fuel i n q) := by
  intro fuel
  induction fuel with
  | zero => intro i q h; omega
  | succ f ih =>
    intro i q _ hf
    simp only [heap.initLoop]
    split
    · refine noBound_seq (noBound_down _ _ q) ?_
      intro _ q1 _
      exact ih _ q1 (by omega) (by omega)
    · trivial

theorem noBound_Init (q : Queue α) : NoBound (heap.Init q) := by
  unfold heap.Init
  rw [Exec.seq_ok (Len_run q)]
  have e : ((q.collection.length : Int)).tdiv 2 = ((q.collection.length / 2 : Nat) : Int) :=
    (Int.ofNat_tdiv q.collection.length 2).symm
  rw [e]
  exact noBound_initLoop _ _ _ q (by omega) (by simp; omega)

theorem noBound_heapify (q : Queue α) : NoBound (heapify q) := by
  rw [heapify_run]; trivial

theorem noBound_heapPush (x : Value α) (q : Queue α) : NoBound (heap.Push x q) := by
  unfold heap.Push
  refine noBound_seq (noBound_Push x q) (fun _ q1 _ => ?_)
  rw [Exec.seq_ok (Len_run q1)]
  exact noBound_up _ q1

theorem noBound_heapPop (q : Queue α) : NoBound (heap.Pop q) := by
  unfold heap.Pop
  rw [Exec.seq_ok (Len_run q)]
  refine noBound_seq (noBound_Swap _ _ q) (fun _ q1 _ => ?_)
  exact noBound_seq (noBound_down _ _ q1) (fun _ q2 _ => noBound_Pop q2)

theorem noBound_heapRemove (i : Int) (q : Queue α) : NoBound (heap.Remove i q) := by
  unfold heap.Remove
  rw [Exec.seq_ok (Len_run q)]
  simp only
  split
  · refine noBound_seq (noBound_Swap _ _ q) (fun _ q1 _ => ?_)
    refine noBound_seq (noBound_down _ _ q1) (fun moved q2 _ => ?_)
    split
    · exact noBound_seq (noBound_up _ q2) (fun _ q3 _ => noBound_Pop q3)
    · exact noBound_seq (noBound_ok _ _) (fun _ q3 _ => noBound_Pop q3)
  · exact noBound_seq (noBound_ok _ _) (fun _ q3 _ => noBound_Pop q3)

theorem noBound_Add (x : α) (q : Queue α) : NoBound (Add x q) := by
  rw [Add_run]; trivial

theorem noBound_Remove (q : Queue α) : NoBound (Remove q) := by
  unfold Remove
  rw [Exec.seq_ok (heapify_run q)]
  exact noBound_heapPop _

theorem noBound_AddSlice (s : List α) (q : Queue α) : NoBound (AddSlice s q) := by
  rw [AddSlice_run]; trivial

/-! ## Heap construction on a heap, and sorted storage -/

theorem downL_of_heap (n : Nat) (fuel : Nat) (l : List α) (i : Nat) (h : HeapOn l 0 n) :
    downL fuel l i n = (l, i) := by
  cases fuel with
  | zero => rfl
  | succ f =>
    simp only [downL]
    split
    · rfl
    · rename_i h1
      obtain ⟨hc, hlt, -⟩ := minChild_spec l i n (by omega)
      have hle := h i (minChild l i n) (Nat.zero_le _) hlt hc
      rw [if_neg (not_lt.2 hle)]

theorem initL_of_heap (n : Nat) : ∀ (k : Nat) (l : List α), HeapOn l 0 n → initL k l n = l := by
  intro k
  induction k with
  | zero => intro l _; rfl
  | succ k ih =>
    intro l h
    simp only [initL]
    rw [downL_of_heap n _ l k h]
    exact ih l h

theorem Init_of_isHeap (q : Queue α) (h : IsHeap q.collection) : heap.Init q = Res.ok () q := by
  obtain ⟨b, l⟩ := q
  rw [Init_run, initL_of_heap _ _ _ ((isHeap_iff l).1 h)]

theorem Ascending.mono {l : List α} (h : Ascending l) :
    ∀ j, j < l.length → ∀ i, i ≤ j → keyAt l i ≤ keyAt l j := by
  intro j
  induction j with
  | zero =>
    intro _ i hi
    have : i = 0 := by omega
    subst this
    exact le_refl _
  | succ j ih =>
    intro hj i hi
    by_cases he : i = j + 1
    · subst he; exact le_refl _
    · have h1 := ih (by omega) i (by omega)
      have h2 := h (j + 1) hj (by omega)
      simp only [Nat.add_sub_cancel] at h2
      exact le_trans h1 h2

theorem isHeap_of_ascending (l : List α) (h : Ascending l) : IsHeap l := by
  intro i _ c hc hch
  exact h.mono c hc i (by omega)

theorem Member_run (q : Queue α) (i : Int) (h0 : 0 ≤ i) (hi : i < (q.collection.length : Int)) :
    ∃ m, q.collection[i.toNat]? = some m ∧ Member i q = Res.ok (some m, none) q := by
  obtain ⟨m, hm, hm'⟩ := index_some q.collection i h0 hi
  exact ⟨m, hm', by simp [Member, hi, hm]⟩

/-! ## Sorted storage and `Member` -/

theorem ascending_iff_member (q : Queue α) :
    Ascending q.collection ↔
      ∀ i : Int, 1 ≤ i → i < (q.collection.length : Int) →
        ∃ x y, Member (i - 1) q = Res.ok (some x, none) q ∧
          Member i q = Res.ok (some y, none) q ∧ Priority x ≤ Priority y := by
  constructor
  · intro h i h1 hi
    obtain ⟨x, hx, hxr⟩ := Member_run q (i - 1) (by omega) (by omega)
    obtain ⟨y, hy, hyr⟩ := Member_run q i (by omega) hi
    refine ⟨x, y, hxr, hyr, ?_⟩
    have hk := h i.toNat (by omega) (by omega)
    have e : (i - 1).toNat = i.toNat - 1 := by omega
    rw [e] at hx
    rwa [keyAt_of_getElem? hx, keyAt_of_getElem? hy] at hk
  · intro h i hi h1
    obtain ⟨x, y, hxr, hyr, hle⟩ := h (i : Int) (by omega) (by omega)
    obtain ⟨x', hx, hxr'⟩ := Member_run q ((i : Int) - 1) (by omega) (by omega)
    obtain ⟨y', hy, hyr'⟩ := Member_run q (i : Int) (by omega) (by omega)
    rw [hxr] at hxr'
    rw [hyr] at hyr'
    injection hxr' with hxx _
    injection hyr' with hyy _
    injection hxx with hxx _
    injection hyy with hyy _
    injection hxx with hxx
    injection hyy with hyy
    subst hxx
    subst hyy
    have e : ((i : Int) - 1).toNat = i - 1 := by omega
    rw [e] at hx
    rw [Int.toNat_ofNat] at hy
    rwa [keyAt_of_getElem? hx, keyAt_of_getElem? hy]

/-! ## The claims -/

/-- C1, round-trip sort: starting from `NewQueue()`, calling `Add` on each element of
`xs` in order and then `Remove()` exactly `len(xs)` times returns normally; the
values returned, in order, have non-decreasing priorities and are a permutation of
`xs` (equal to it as a multiset), and `Len()` is `0` afterwards. -/
theorem roundtrip_sort (xs : List α) :
    ∃ (out : List α) (q' : Queue α),
      (do addAll xs; removeN xs.length : Exec (Queue α) (List (Value α))) NewQueue
        = Res.ok (out.map Value.queueable) q' ∧
      NonDecreasing out ∧ out.Perm xs ∧ Len q' = Res.ok 0 q' := by
  obtain ⟨q1, h1, hp1, hh1⟩ := addAll_ok xs (NewQueue : Queue α) (Or.inl rfl)
  have hp1' : q1.collection.Perm xs := by simpa [NewQueue] using hp1
  obtain ⟨out, q2, h2, hp2, hs2, he2⟩ := removeN_ok xs.length q1 hp1'.length_eq hh1
  refine ⟨out, q2, ?_, hs2, hp2.trans hp1', ?_⟩
  · exact (Exec.seq_ok h1).trans h2
  · simp [Len, he2]

/-- C2, min correctness of `Remove`: on a non-empty queue whose flag `heaped` is
false (storage in any order), or whose storage satisfies the min-heap property,
`Remove()` returns an element `r` of the storage, the remaining storage is the old
one minus one occurrence of `r` as a multiset, and `r.Priority() ≤ y.Priority()`
for every remaining element `y`. -/
theorem Remove_min (q : Queue α) (hne : q.collection ≠ [])
    (h : q.heaped = false ∨ IsHeap q.collection) :
    ∃ r q', Remove q = Res.ok (Value.queueable r) q' ∧ r ∈ q.collection ∧
      (r :: q'.collection).Perm q.collection ∧
      ∀ y ∈ q'.collection, Priority r ≤ Priority y := by
  obtain ⟨r, q1, h1, _, hp1, hh1⟩ := Remove_ok q hne
  refine ⟨r, q1, h1, hp1.subset (List.mem_cons_self r _), hp1, ?_⟩
  intro y hy
  exact (hh1 h).2 y (hp1.subset (List.mem_cons_of_mem r hy))

/-- Instance of C2 at the unordered storage `3, 1, 2` with the flag unset. -/
theorem Remove_min_witness :
    (Queue.mk false [message.mk 3, message.mk 1, message.mk 2]).collection ≠ [] ∧
    ∃ r q', Remove (Queue.mk false [message.mk 3, message.mk 1, message.mk 2])
        = Res.ok (Value.queueable r) q' ∧
      r ∈ (Queue.mk false [message.mk 3, message.mk 1, message.mk 2]).collection ∧
      (r :: q'.collection).Perm
        (Queue.mk false [message.mk 3, message.mk 1, message.mk 2]).collection ∧
      ∀ y ∈ q'.collection, Priority r ≤ Priority y :=
  ⟨by decide, Remove_min (Queue.mk false [message.mk 3, message.mk 1, message.mk 2])
    (by decide) (Or.inl rfl)⟩

/-- C3, heap invariant: for every sequence of operations `Add(x)`, `Remove()` (issued
on a non-empty queue) and `heap.Remove(q, i)` (issued with `0 ≤ i < Len()`) applied
to `NewQueue()`, every operation returns normally and the storage after each of
them satisfies the binary min-heap property. -/
theorem heap_invariant (ops : List (Op α)) (h : admissible ops (NewQueue : Queue α) = true) :
    (trace ops (NewQueue : Queue α)).length = ops.length ∧
      ∀ o ∈ trace ops (NewQueue : Queue α), ∃ q', o = Res.ok () q' ∧ IsHeap q'.collection :=
  trace_ok ops NewQueue (fun i hi => by simp [NewQueue] at hi) h

/-- Instance of C3 at the sequence `Add(3), Add(1), Add(2), heap.Remove(q, 1), Remove()`. -/
theorem heap_invariant_witness :
    admissible [Op.add (message.mk 3), Op.add (message.mk 1), Op.add (message.mk 2),
        Op.removeAt 1, Op.remove] (NewQueue : Queue message) = true ∧
    ((trace [Op.add (message.mk 3), Op.add (message.mk 1), Op.add (message.mk 2),
        Op.removeAt 1, Op.remove] (NewQueue : Queue message)).length = 5 ∧
      ∀ o ∈ trace [Op.add (message.mk 3), Op.add (message.mk 1), Op.add (message.mk 2),
        Op.removeAt 1, Op.remove] (NewQueue : Queue message),
        ∃ q', o = Res.ok () q' ∧ IsHeap q'.collection) :=
  ⟨by decide, heap_invariant _ (by decide)⟩

/-- C4, at the failing input: after `Add(5)` the flag `heaped` is set, so
`AddSlice([1])` only appends; the storage `5, 1` is not a min-heap and the next
`Remove()` returns priority 5 although priority 1 is stored. -/
theorem AddSlice_after_Add_not_heaped :
    (do Add (message.mk 5); AddSlice [message.mk 1] : Exec (Queue message) Unit) NewQueue
        = Res.ok () (Queue.mk true [message.mk 5, message.mk 1]) ∧
    ¬ IsHeap [message.mk 5, message.mk 1] ∧
    (do Add (message.mk 5); AddSlice [message.mk 1]; Remove :
        Exec (Queue message) (Value message)) NewQueue
        = Res.ok (Value.queueable (message.mk 5)) (Queue.mk true [message.mk 1]) := by
  decide

/-- C5 as stated fails: `Remove()` on a freshly constructed queue does not return to
the caller at all; it panics with a run-time index-out-of-range error. -/
theorem Remove_NewQueue_panics :
    Remove (NewQueue : Queue message) = Res.panic Fault.indexOutOfRange (Queue.mk true []) ∧
    ¬ ∃ r q', Remove (NewQueue : Queue message) = Res.ok r q' := by
  refine ⟨by decide, ?_⟩
  rintro ⟨r, q', h⟩
  have h2 : Remove (NewQueue : Queue message)
      = Res.panic Fault.indexOutOfRange (Queue.mk true []) := by decide
  rw [h2] at h
  exact Res.noConfusion h

/-- C5, amended: calling `Remove()` on a queue with `Len() == 0` returns no result;
it panics with the run-time error "index out of range" (raised by `Swap(0, -1)` in
`heap.Pop`), leaving the storage empty and the flag `heaped` set. -/
theorem Remove_empty_panics (q : Queue α) (h : q.collection = []) :
    Remove q = Res.panic Fault.indexOutOfRange (Queue.mk true []) :=
  Remove_panic q h

/-- Instance of the amended C5 at `NewQueue()`. -/
theorem Remove_empty_panics_witness :
    (NewQueue : Queue message).collection = [] ∧
    Remove (NewQueue : Queue message) = Res.panic Fault.indexOutOfRange (Queue.mk true []) :=
  ⟨rfl, Remove_empty_panics NewQueue rfl⟩

/-- C6, remove at index: on a queue whose storage satisfies the min-heap property, for
every index `i` with `0 ≤ i < Len()`, `heap.Remove(q, i)` returns exactly the element
stored at index `i`; the resulting storage is the old one minus that element as a
multiset and again satisfies the min-heap property (whichever way the replacement
element has to move); the flag `heaped` is untouched. -/
theorem heapRemove_at_index (q : Queue α) (i : Int) (hq : IsHeap q.collection) (h0 : 0 ≤ i)
    (hi : i < (q.collection.length : Int)) :
    ∃ r q', heap.Remove i q = Res.ok (Value.queueable r) q' ∧ index q.collection i = some r ∧
      (r :: q'.collection).Perm q.collection ∧ IsHeap q'.collection ∧
      q'.heaped = q.heaped := by
  obtain ⟨r, q1, h1, hr, hb, hp, hh⟩ := heapRemove_ok q i h0 hi
  exact ⟨r, q1, h1, hr, hp, hh hq, hb⟩

/-- Instance of C6 where the replacement element moves up: in the heap
`1, 10, 2, 11, 12, 3, 4`, removing index 3 puts priority 4 below priority 10. -/
theorem heapRemove_at_index_witness :
    IsHeap [message.mk 1, message.mk 10, message.mk 2, message.mk 11, message.mk 12,
      message.mk 3, message.mk 4] ∧ (0 : Int) ≤ 3 ∧
    ∃ r q', heap.Remove 3 (Queue.mk true [message.mk 1, message.mk 10, message.mk 2,
        message.mk 11, message.mk 12, message.mk 3, message.mk 4])
        = Res.ok (Value.queueable r) q' ∧
      index [message.mk 1, message.mk 10, message.mk 2, message.mk 11, message.mk 12,
        message.mk 3, message.mk 4] 3 = some r ∧
      (r :: q'.collection).Perm [message.mk 1, message.mk 10, message.mk 2, message.mk 11,
        message.mk 12, message.mk 3, message.mk 4] ∧
      IsHeap q'.collection ∧ q'.heaped = true :=
  ⟨by decide, by decide,
    heapRemove_at_index (Queue.mk true [message.mk 1, message.mk 10, message.mk 2,
      message.mk 11, message.mk 12, message.mk 3, message.mk 4]) 3 (by decide) (by decide)
      (by decide)⟩

/-- C7, member bounds: for every index `i` with `0 ≤ i < Len()`, `Member(i)` returns the
element at position `i` of the current storage together with a nil error; for every
`i ≥ Len()` it returns a nil member together with `QERR_OUT_OF_BOUNDS`; in both cases
the queue is unchanged. -/
theorem Member_bounds (q : Queue α) :
    (∀ i : Int, 0 ≤ i → i < (q.collection.length : Int) →
      ∃ m, q.collection[i.toNat]? = some m ∧ Member i q = Res.ok (some m, none) q) ∧
    (∀ i : Int, (q.collection.length : Int) ≤ i →
      Member i q = Res.ok (none, some Error.QERR_OUT_OF_BOUNDS) q) := by
  constructor
  · intro i h0 hi
    obtain ⟨m, hm, hm'⟩ := index_some q.collection i h0 hi
    exact ⟨m, hm', by simp [Member, hi, hm]⟩
  · intro i hi
    simp [Member, not_lt.2 hi]

/-- Instance of C7 on the storage `128, 256, 512`: indices 2, 3 (`Len()`) and
4 (`Len()+1`). -/
theorem Member_bounds_witness :
    (∃ m, [message.mk 128, message.mk 256, message.mk 512][(2 : Int).toNat]? = some m ∧
      Member 2 (Queue.mk false [message.mk 128, message.mk 256, message.mk 512])
        = Res.ok (some m, none) (Queue.mk false [message.mk 128, message.mk 256, message.mk 512])) ∧
    Member 3 (Queue.mk false [message.mk 128, message.mk 256, message.mk 512])
      = Res.ok (none, some Error.QERR_OUT_OF_BOUNDS)
          (Queue.mk false [message.mk 128, message.mk 256, message.mk 512]) ∧
    Member 4 (Queue.mk false [message.mk 128, message.mk 256, message.mk 512])
      = Res.ok (none, some Error.QERR_OUT_OF_BOUNDS)
          (Queue.mk false [message.mk 128, message.mk 256, message.mk 512]) :=
  ⟨(Member_bounds (Queue.mk false [message.mk 128, message.mk 256, message.mk 512])).1 2
      (by decide) (by decide),
    (Member_bounds (Queue.mk false [message.mk 128, message.mk 256, message.mk 512])).2 3
      (by decide),
    (Member_bounds (Queue.mk false [message.mk 128, message.mk 256, message.mk 512])).2 4
      (by decide)⟩

/-- C8, count conservation: `Len()` is the length of the storage; it grows by exactly 1
with `Add(x)` and with a raw `Push(x)` of a `Queueable` value, by exactly `len(s)` with
`AddSlice(s)`, and shrinks by exactly 1 with every `Remove()`, `heap.Remove(q, i)` and
raw `Pop()` that returns; on a non-empty queue `Remove()`, `Pop()` and
`heap.Remove(q, i)` for `0 ≤ i < Len()` do return. -/
theorem Len_conservation (q : Queue α) :
    Len q = Res.ok (q.collection.length : Int) q ∧
    (∀ x, ∃ q', Add x q = Res.ok () q' ∧ q'.collection.length = q.collection.length + 1) ∧
    (∀ x, ∃ q', Push (Value.queueable x) q = Res.ok () q' ∧
      q'.collection.length = q.collection.length + 1) ∧
    (∀ s, ∃ q', AddSlice s q = Res.ok () q' ∧
      q'.collection.length = q.collection.length + s.length) ∧
    (∀ r q', Remove q = Res.ok r q' → q'.collection.length + 1 = q.collection.length) ∧
    (∀ i r q', heap.Remove i q = Res.ok r q' →
      q'.collection.length + 1 = q.collection.length) ∧
    (∀ r q', Pop q = Res.ok r q' → q'.collection.length + 1 = q.collection.length) ∧
    (q.collection ≠ [] →
      (∃ r q', Remove q = Res.ok r q') ∧ (∃ r q', Pop q = Res.ok r q') ∧
      ∀ i : Int, 0 ≤ i → i < (q.collection.length : Int) →
        ∃ r q', heap.Remove i q = Res.ok r q') := by
  have hpop : q.collection ≠ [] → ∃ x q', Pop q = Res.ok (Value.queueable x) q' ∧
      q'.collection.length + 1 = q.collection.length := by
    intro hne
    obtain ⟨b, l⟩ := q
    have hl : 0 < l.length := List.length_pos.2 hne
    obtain ⟨n, hn⟩ : ∃ n, n + 1 = l.length := ⟨l.length - 1, by omega⟩
    refine ⟨l[n], _, Pop_run b l _ n hn (List.getElem?_eq_getElem (by omega)), ?_⟩
    simp only [List.length_take]
    omega
  refine ⟨rfl, ?_, ?_, ?_, ?_, ?_, ?_, ?_⟩
  · intro x
    obtain ⟨q1, h1, _, hp, _⟩ := Add_ok q x
    exact ⟨q1, h1, by simpa using hp.length_eq⟩
  · intro x
    exact ⟨_, rfl, by simp⟩
  · intro s
    refine ⟨_, AddSlice_run q s, ?_⟩
    have := (heapL_perm (Queue.mk q.heaped (q.collection ++ s))).length_eq
    simpa using this
  · intro r q' h
    by_cases hne : q.collection = []
    · rw [Remove_panic q hne] at h
      exact Res.noConfusion h
    · obtain ⟨r1, q1, h1, _, hp, _⟩ := Remove_ok q hne
      rw [h1] at h
      injection h with _ hq
      subst hq
      simpa using hp.length_eq
  · intro i r q' h
    by_cases hi : i < 0 ∨ (q.collection.length : Int) ≤ i
    · rw [heapRemove_panic q i hi] at h
      exact Res.noConfusion h
    · obtain ⟨r1, q1, h1, _, _, hp, _⟩ := heapRemove_ok q i (by omega) (by omega)
      rw [h1] at h
      injection h with _ hq
      subst hq
      simpa using hp.length_eq
  · intro r q' h
    by_cases hne : q.collection = []
    · rw [Pop_panic q hne] at h
      exact Res.noConfusion h
    · obtain ⟨x, q1, h1, hl⟩ := hpop hne
      rw [h1] at h
      injection h with _ hq
      subst hq
      exact hl
  · intro hne
    refine ⟨?_, ?_, ?_⟩
    · obtain ⟨r1, q1, h1, _⟩ := Remove_ok q hne
      exact ⟨_, _, h1⟩
    · obtain ⟨x, q1, h1, _⟩ := hpop hne
      exact ⟨_, _, h1⟩
    · intro i h0 hi
      obtain ⟨r1, q1, h1, _⟩ := heapRemove_ok q i h0 hi
      exact ⟨_, _, h1⟩

/-- Instance of C8 on the storage `128, 256, 512`: the three removals return. -/
theorem Len_conservation_witness :
    (Queue.mk false [message.mk 128, message.mk 256, message.mk 512]).collection ≠ [] ∧
    (∃ r q', Remove (Queue.mk false [message.mk 128, message.mk 256, message.mk 512])
      = Res.ok r q') ∧
    (∃ r q', Pop (Queue.mk false [message.mk 128, message.mk 256, message.mk 512])
      = Res.ok r q') ∧
    ∀ i : Int, 0 ≤ i →
      i < ((Queue.mk false [message.mk 128, message.mk 256, message.mk 512]).collection.length
        : Int) →
      ∃ r q', heap.Remove i (Queue.mk false [message.mk 128, message.mk 256, message.mk 512])
        = Res.ok r q' :=
  ⟨by decide,
    (Len_conservation (Queue.mk false [message.mk 128, message.mk 256, message.mk 512])).2.2.2.2.2.2.2
      (by decide)⟩

/-- C9 as stated fails: on a fresh queue `AddSlice([2, 1])` leaves the storage `1, 2`,
not the old storage followed by `2, 1`. -/
theorem AddSlice_reorders :
    AddSlice [message.mk 2, message.mk 1] NewQueue
      = Res.ok () (Queue.mk true [message.mk 1, message.mk 2]) ∧
    [message.mk 1, message.mk 2]
      ≠ (NewQueue : Queue message).collection ++ [message.mk 2, message.mk 1] := by
  decide

/-- C9, amended: `AddSlice(s)` returns with the flag `heaped` set and with a storage
that holds exactly the elements of the old storage and of `s` (a permutation of the
old storage followed by `s`); on a queue whose flag was not set, the bulk load itself
rebuilds the heap, so that the storage satisfies the min-heap property. -/
theorem AddSlice_storage (q : Queue α) (s : List α) :
    ∃ q', AddSlice s q = Res.ok () q' ∧ q'.heaped = true ∧
      q'.collection.Perm (q.collection ++ s) ∧
      (q.heaped = false → IsHeap q'.collection) := by
  refine ⟨_, AddSlice_run q s, rfl, heapL_perm _, ?_⟩
  intro h
  exact heapL_isHeap _ (Or.inl h)

/-- Instance of the amended C9: `AddSlice([2, 1])` on a fresh queue. -/
theorem AddSlice_storage_witness :
    (NewQueue : Queue message).heaped = false ∧
    ∃ q', AddSlice [message.mk 2, message.mk 1] (NewQueue : Queue message) = Res.ok () q' ∧
      q'.collection.Perm ((NewQueue : Queue message).collection
        ++ [message.mk 2, message.mk 1]) ∧ IsHeap q'.collection := by
  obtain ⟨q2, h2, _, p2, e2⟩ :=
    AddSlice_storage (NewQueue : Queue message) [message.mk 2, message.mk 1]
  exact ⟨rfl, q2, h2, p2, e2 rfl⟩

/-- C10, raw append: for a `Queueable` value `x`, `Push(x)` returns with the storage
equal to the old storage followed by `x`, so every existing element keeps its
position, and with the flag `heaped` unchanged. -/
theorem Push_appends (q : Queue α) (x : α) :
    ∃ q', Push (Value.queueable x) q = Res.ok () q' ∧
      q'.collection = q.collection ++ [x] ∧ q'.heaped = q.heaped ∧
      ∀ i : Nat, i < q.collection.length → q'.collection[i]? = q.collection[i]? := by
  refine ⟨_, rfl, rfl, rfl, ?_⟩
  intro i hi
  exact List.getElem?_append_left hi

/-- C11, `Push` fails exactly on non-`Queueable` values: `Push(x)` panics with
`QERR_NOT_QUEUEABLE` if and only if `x` is not a `Queueable` value; it panics with
nothing else, and when it panics the queue (storage and flag) is left unchanged. -/
theorem Push_fails_iff (q : Queue α) (x : Value α) :
    ((∃ s, Push x q = Res.panic (Fault.raised Error.QERR_NOT_QUEUEABLE) s) ↔
      ∀ y, x ≠ Value.queueable y) ∧
    (∀ f s, Push x q = Res.panic f s →
      f = Fault.raised Error.QERR_NOT_QUEUEABLE ∧ s = q) := by
  cases x with
  | queueable y =>
    refine ⟨⟨?_, fun h => absurd rfl (h y)⟩, ?_⟩
    · rintro ⟨s, hs⟩
      exact Res.noConfusion hs
    · intro f s hs
      exact Res.noConfusion hs
  | other t =>
    refine ⟨⟨fun _ y hy => Value.noConfusion hy, fun _ => ⟨q, rfl⟩⟩, ?_⟩
    intro f s hs
    simp only [Push] at hs
    injection hs with h1 h2
    exact ⟨h1.symm, h2.symm⟩

/-- C12, raw `Pop`: on a non-empty queue `Pop()` returns the last element of the
storage and removes exactly that element: the old storage is the new one followed by
the returned element, so `Len()` decreases by 1 and every other element stays at its
position, in the order it had; the flag `heaped` is unchanged. -/
theorem Pop_last (q : Queue α) (hne : q.collection ≠ []) :
    ∃ x q', Pop q = Res.ok (Value.queueable x) q' ∧ q.collection = q'.collection ++ [x] ∧
      q'.collection.length + 1 = q.collection.length ∧
      (∀ i : Nat, i < q'.collection.length → q'.collection[i]? = q.collection[i]?) ∧
      q'.heaped = q.heaped := by
  obtain ⟨b, l⟩ := q
  have hl : 0 < l.length := List.length_pos.2 hne
  obtain ⟨n, hn⟩ : ∃ n, n + 1 = l.length := ⟨l.length - 1, by omega⟩
  have hx : l[n]? = some l[n] := List.getElem?_eq_getElem (by omega)
  have happ : l = l.take n ++ [l[n]] := by
    have h1 : l.take (n + 1) = l.take n ++ l[n]?.toList := List.take_succ
    rw [hx, List.take_of_length_le (by omega)] at h1
    exact h1
  refine ⟨l[n], _, Pop_run b l _ n hn hx, happ, ?_, ?_, rfl⟩
  · simp only [List.length_take]; omega
  · intro i hi
    simp only [List.length_take] at hi
    exact List.getElem?_take_of_lt (by omega)

/-- Instance of C12 on the storage of `TestPopElement`, `128, 256, 512`: `Pop()`
returns priority 512 and `Len()` goes from 3 to 2. -/
theorem Pop_last_witness :
    (Queue.mk false [message.mk 128, message.mk 256, message.mk 512]).collection ≠ [] ∧
    (∃ x q', Pop (Queue.mk false [message.mk 128, message.mk 256, message.mk 512])
        = Res.ok (Value.queueable x) q' ∧
      (Queue.mk false [message.mk 128, message.mk 256, message.mk 512]).collection
        = q'.collection ++ [x] ∧
      q'.collection.length + 1
        = (Queue.mk false [message.mk 128, message.mk 256, message.mk 512]).collection.length ∧
      (∀ i : Nat, i < q'.collection.length → q'.collection[i]?
        = (Queue.mk false [message.mk 128, message.mk 256, message.mk 512]).collection[i]?) ∧
      q'.heaped = (Queue.mk false [message.mk 128, message.mk 256, message.mk 512]).heaped) ∧
    Pop (Queue.mk false [message.mk 128, message.mk 256, message.mk 512])
      = Res.ok (Value.queueable (message.mk 512))
          (Queue.mk false [message.mk 128, message.mk 256]) :=
  ⟨by decide,
    Pop_last (Queue.mk false [message.mk 128, message.mk 256, message.mk 512]) (by decide),
    by decide⟩

/-- C13, insert sifts the new element to its place: on a queue whose flag `heaped` is
unset, or whose storage satisfies the min-heap property, `Add(x)` returns with a
storage that is a permutation of the old storage plus `x` and satisfies the min-heap
property; `Member(0)` then returns an element of minimum priority among all stored
elements, and its priority is `x.Priority()` when that is `≤` every priority
already stored. -/
theorem Add_sifts (q : Queue α) (x : α) (h : q.heaped = false ∨ IsHeap q.collection) :
    ∃ q', Add x q = Res.ok () q' ∧ q'.collection.Perm (x :: q.collection) ∧
      IsHeap q'.collection ∧
      ∃ m, Member 0 q' = Res.ok (some m, none) q' ∧
        (∀ y ∈ q'.collection, Priority m ≤ Priority y) ∧
        ((∀ y ∈ q.collection, Priority x ≤ Priority y) → Priority m = Priority x) := by
  obtain ⟨q1, h1, _, hp, hh⟩ := Add_ok q x
  have hheap := hh h
  have hlen : (0 : Int) < (q1.collection.length : Int) := by
    have := hp.length_eq
    simp only [List.length_cons] at this
    omega
  obtain ⟨m, hm, hrun⟩ := Member_run q1 0 (le_refl _) hlen
  have hm0 : q1.collection[0]? = some m := by simpa using hm
  have hmin : ∀ y ∈ q1.collection, Priority m ≤ Priority y :=
    fun y hy => isHeap_root_le _ hheap m y hm0 hy
  refine ⟨q1, h1, hp, hheap, m, hrun, hmin, ?_⟩
  intro hx
  have hmq : m ∈ q1.collection := by
    obtain ⟨hlt, rfl⟩ := List.getElem?_eq_some_iff.1 hm0
    exact List.getElem_mem _
  have hmem : m ∈ x :: q.collection := hp.subset hmq
  have h2 : Priority x ≤ Priority m := by
    rcases List.mem_cons.1 hmem with rfl | hm'
    · exact le_refl _
    · exact hx m hm'
  exact le_antisymm (hmin x (hp.symm.subset (List.mem_cons_self x _))) h2

/-- Instance of C13 in the shape of `TestHeapInitAndPush`: priority 0 is added to a
heap holding `1, 3, 2`. -/
theorem Add_sifts_witness :
    ((Queue.mk true [message.mk 1, message.mk 3, message.mk 2]).heaped = false ∨
      IsHeap (Queue.mk true [message.mk 1, message.mk 3, message.mk 2]).collection) ∧
    ∃ q', Add (message.mk 0) (Queue.mk true [message.mk 1, message.mk 3, message.mk 2])
        = Res.ok () q' ∧
      q'.collection.Perm (message.mk 0 ::
        (Queue.mk true [message.mk 1, message.mk 3, message.mk 2]).collection) ∧
      IsHeap q'.collection ∧
      ∃ m, Member 0 q' = Res.ok (some m, none) q' ∧
        (∀ y ∈ q'.collection, Priority m ≤ Priority y) ∧
        ((∀ y ∈ (Queue.mk true [message.mk 1, message.mk 3, message.mk 2]).collection,
          Priority (message.mk 0) ≤ Priority y) → Priority m = Priority (message.mk 0)) :=
  ⟨Or.inr (by decide),
    Add_sifts (Queue.mk true [message.mk 1, message.mk 3, message.mk 2]) (message.mk 0)
      (Or.inr (by decide))⟩

/-- C14, the scenario of `TestHeapRemove`: raw pushes of priorities
`8, 3, 9, 1, 10, 2, 5, 6, 7, 4` onto `NewQueue()` followed by `heap.Init` give the
heap `1, 3, 2, 6, 4, 9, 5, 8, 7, 10`; from it extraction of the minimum (`heap.Pop`,
and likewise `Remove()`) returns priority 1; and from the same heap
`heap.Remove(q, 5)` returns priority 9, after which `Member(0)` has priority 1. -/
theorem scenario_heap_remove :
    (do
      pushAll ([8, 3, 9, 1, 10, 2, 5, 6, 7, 4].map fun p => Value.queueable (message.mk p))
      heap.Init : Exec (Queue message) Unit) NewQueue
      = Res.ok () (Queue.mk false ([1, 3, 2, 6, 4, 9, 5, 8, 7, 10].map message.mk)) ∧
    IsHeap ([1, 3, 2, 6, 4, 9, 5, 8, 7, 10].map message.mk) ∧
    heap.Pop (Queue.mk false ([1, 3, 2, 6, 4, 9, 5, 8, 7, 10].map message.mk))
      = Res.ok (Value.queueable (message.mk 1))
          (Queue.mk false ([2, 3, 5, 6, 4, 9, 10, 8, 7].map message.mk)) ∧
    Remove (Queue.mk false ([1, 3, 2, 6, 4, 9, 5, 8, 7, 10].map message.mk))
      = Res.ok (Value.queueable (message.mk 1))
          (Queue.mk true ([2, 3, 5, 6, 4, 9, 10, 8, 7].map message.mk)) ∧
    (do
      let r ← heap.Remove 5
      let m ← Member 0
      pure (r, m) : Exec (Queue message) (Value message × Option message × Option Error))
        (Queue.mk false ([1, 3, 2, 6, 4, 9, 5, 8, 7, 10].map message.mk))
      = Res.ok (Value.queueable (message.mk 9), some (message.mk 1), none)
          (Queue.mk false ([1, 3, 2, 6, 4, 10, 5, 8, 7].map message.mk)) := by
  have d4 : downL 11 ([8, 3, 9, 1, 10, 2, 5, 6, 7, 4].map message.mk) 4 10
      = ([8, 3, 9, 1, 4, 2, 5, 6, 7, 10].map message.mk, 9) := by decide
  have d3 : downL 11 ([8, 3, 9, 1, 4, 2, 5, 6, 7, 10].map message.mk) 3 10
      = ([8, 3, 9, 1, 4, 2, 5, 6, 7, 10].map message.mk, 3) := by decide
  have d2 : downL 11 ([8, 3, 9, 1, 4, 2, 5, 6, 7, 10].map message.mk) 2 10
      = ([8, 3, 2, 1, 4, 9, 5, 6, 7, 10].map message.mk, 5) := by decide
  have d1 : downL 11 ([8, 3, 2, 1, 4, 9, 5, 6, 7, 10].map message.mk) 1 10
      = ([8, 1, 2, 3, 4, 9, 5, 6, 7, 10].map message.mk, 3) := by decide
  have d0 : downL 11 ([8, 1, 2, 3, 4, 9, 5, 6, 7, 10].map message.mk) 0 10
      = ([1, 3, 2, 6, 4, 9, 5, 8, 7, 10].map message.mk, 7) := by decide
  have hinit : initL 5 ([8, 3, 9, 1, 10, 2, 5, 6, 7, 4].map message.mk) 10
      = [1, 3, 2, 6, 4, 9, 5, 8, 7, 10].map message.mk := by
    simp only [initL, d4, d3, d2, d1, d0]
  have hheap : IsHeap ([1, 3, 2, 6, 4, 9, 5, 8, 7, 10].map message.mk) := by
    rw [← hinit]
    exact initL_isHeap ([8, 3, 9, 1, 10, 2, 5, 6, 7, 4].map message.mk)
  have hpop : popL ([1, 3, 2, 6, 4, 9, 5, 8, 7, 10].map message.mk)
      = [2, 3, 5, 6, 4, 9, 10, 8, 7].map message.mk := by
    have s : swapL ([1, 3, 2, 6, 4, 9, 5, 8, 7, 10].map message.mk) 0 9
        = [10, 3, 2, 6, 4, 9, 5, 8, 7, 1].map message.mk := by decide
    have d : downL 10 ([10, 3, 2, 6, 4, 9, 5, 8, 7, 1].map message.mk) 0 9
        = ([2, 3, 5, 6, 4, 9, 10, 8, 7, 1].map message.mk, 6) := by decide
    have e : popL ([1, 3, 2, 6, 4, 9, 5, 8, 7, 10].map message.mk)
        = (downL 10 (swapL ([1, 3, 2, 6, 4, 9, 5, 8, 7, 10].map message.mk) 0 9) 0 9).1.take 9 :=
      rfl
    rw [e, s, d]
    rfl
  have hrem : removeL ([1, 3, 2, 6, 4, 9, 5, 8, 7, 10].map message.mk) 5
      = [1, 3, 2, 6, 4, 10, 5, 8, 7].map message.mk := by
    have s : swapL ([1, 3, 2, 6, 4, 9, 5, 8, 7, 10].map message.mk) 5 9
        = [1, 3, 2, 6, 4, 10, 5, 8, 7, 9].map message.mk := by decide
    have d : downL 10 ([1, 3, 2, 6, 4, 10, 5, 8, 7, 9].map message.mk) 5 9
        = ([1, 3, 2, 6, 4, 10, 5, 8, 7, 9].map message.mk, 5) := by decide
    have u : upL 6 ([1, 3, 2, 6, 4, 10, 5, 8, 7, 9].map message.mk) 5
        = [1, 3, 2, 6, 4, 10, 5, 8, 7, 9].map message.mk := by decide
    have e : removeL ([1, 3, 2, 6, 4, 9, 5, 8, 7, 10].map message.mk) 5
        = (if 5 < (downL 10 (swapL ([1, 3, 2, 6, 4, 9, 5, 8, 7, 10].map message.mk) 5 9) 5 9).2
            then (downL 10 (swapL ([1, 3, 2, 6, 4, 9, 5, 8, 7, 10].map message.mk) 5 9) 5 9).1
            else upL 6
              (downL 10 (swapL ([1, 3, 2, 6, 4, 9, 5, 8, 7, 10].map message.mk) 5 9) 5 9).1
              5).take 9 := rfl
    rw [e, s, d, if_neg (by decide), u]
    rfl
  refine ⟨?_, hheap, ?_, ?_, ?_⟩
  · have hpush : pushAll
        ([8, 3, 9, 1, 10, 2, 5, 6, 7, 4].map fun p => Value.queueable (message.mk p))
        (NewQueue : Queue message)
        = Res.ok () (Queue.mk false ([8, 3, 9, 1, 10, 2, 5, 6, 7, 4].map message.mk)) := by
      decide
    rw [Exec.seq_ok hpush, Init_run]
    exact congrArg (fun l => Res.ok () (Queue.mk false l)) hinit
  · rw [heapPop_run false _ (message.mk 1) rfl, hpop]
  · have hl : heapL (Queue.mk false ([1, 3, 2, 6, 4, 9, 5, 8, 7, 10].map message.mk))
        = [1, 3, 2, 6, 4, 9, 5, 8, 7, 10].map message.mk :=
      initL_of_heap _ _ _ ((isHeap_iff _).1 hheap)
    rw [Remove_run _ (message.mk 1) (by rw [hl]; rfl), hl, hpop]
  · have hr := heapRemove_run false ([1, 3, 2, 6, 4, 9, 5, 8, 7, 10].map message.mk) 5
      (message.mk 9) rfl
    rw [hrem] at hr
    have hr' : heap.Remove (5 : Int)
        (Queue.mk false ([1, 3, 2, 6, 4, 9, 5, 8, 7, 10].map message.mk))
        = Res.ok (Value.queueable (message.mk 9))
            (Queue.mk false ([1, 3, 2, 6, 4, 10, 5, 8, 7].map message.mk)) := hr
    rw [Exec.seq_ok hr']
    rfl

/-- C15 as stated fails: `heap.Remove(q, 0)` on a freshly constructed queue (index
`0 ≥ Len() = 0`) returns nothing to the caller, neither a value nor an error; it
panics with a run-time index-out-of-range error. -/
theorem heapRemove_NewQueue_panics :
    heap.Remove 0 (NewQueue : Queue message)
      = Res.panic Fault.indexOutOfRange (NewQueue : Queue message) ∧
    ¬ ∃ r q', heap.Remove 0 (NewQueue : Queue message) = Res.ok r q' := by
  have h : heap.Remove 0 (NewQueue : Queue message)
      = Res.panic Fault.indexOutOfRange (NewQueue : Queue message) := by decide
  refine ⟨h, ?_⟩
  rintro ⟨r, q', h2⟩
  rw [h] at h2
  exact Res.noConfusion h2

/-- C15, amended: for every index `i ≥ Len()`, `heap.Remove(q, i)` returns no result;
it panics with the Go run-time error "index out of range" (there is no out-of-bounds
error value on this path), and the queue is left unchanged. -/
theorem heapRemove_out_of_bounds (q : Queue α) (i : Int)
    (h : (q.collection.length : Int) ≤ i) :
    heap.Remove i q = Res.panic Fault.indexOutOfRange q :=
  heapRemove_panic q i (Or.inr h)

/-- Instance of the amended C15 at index 3 (`Len()`) of the storage `128, 256, 512`. -/
theorem heapRemove_out_of_bounds_witness :
    (((Queue.mk true [message.mk 128, message.mk 256, message.mk 512]).collection.length
      : Nat) : Int) ≤ 3 ∧
    heap.Remove 3 (Queue.mk true [message.mk 128, message.mk 256, message.mk 512])
      = Res.panic Fault.indexOutOfRange
          (Queue.mk true [message.mk 128, message.mk 256, message.mk 512]) :=
  ⟨by decide,
    heapRemove_out_of_bounds (Queue.mk true [message.mk 128, message.mk 256, message.mk 512])
      3 (by decide)⟩

/-- C16, ordering policy: for valid indices `i` and `j`, `Less(i, j)` returns, leaves
the queue unchanged, and is true if and only if the priority stored at `i` is
strictly smaller, as an integer, than the priority stored at `j`; so `Less(i, i)` is
false, `Less(i, j)` is false when the two priorities are equal, and `Less(i, j)` and
`Less(j, i)` are never both true. -/
theorem Less_strict (q : Queue α) (i j : Int) (hi0 : 0 ≤ i)
    (hi : i < (q.collection.length : Int)) (hj0 : 0 ≤ j)
    (hj : j < (q.collection.length : Int)) :
    ∃ a b, index q.collection i = some a ∧ index q.collection j = some b ∧
      Less i j q = Res.ok (decide (Priority a < Priority b)) q ∧
      (Less i j q = Res.ok true q ↔ Priority a < Priority b) ∧
      Less i i q = Res.ok false q ∧
      (Priority a = Priority b → Less i j q = Res.ok false q) ∧
      ¬ (Less i j q = Res.ok true q ∧ Less j i q = Res.ok true q) := by
  obtain ⟨a, ha, -⟩ := index_some q.collection i hi0 hi
  obtain ⟨b, hb, -⟩ := index_some q.collection j hj0 hj
  have hij : Less i j q = Res.ok (decide (Priority a < Priority b)) q := by
    simp [Less, ha, hb]
  have hji : Less j i q = Res.ok (decide (Priority b < Priority a)) q := by
    simp [Less, ha, hb]
  have hiff : Less i j q = Res.ok true q ↔ Priority a < Priority b := by
    rw [hij]
    constructor
    · intro h
      injection h with h1 _
      exact of_decide_eq_true h1
    · intro h
      rw [decide_eq_true h]
  refine ⟨a, b, ha, hb, hij, hiff, by simp [Less, ha], ?_, ?_⟩
  · intro he
    rw [hij, he]
    simp
  · rintro ⟨h1, h2⟩
    have h1' := hiff.1 h1
    rw [hji] at h2
    injection h2 with h3 _
    exact absurd (of_decide_eq_true h3) (not_lt.2 (le_of_lt h1'))

/-- Instance of C16 on the storage of `TestLess`, `132, 256`: `Less(0, 1)` is true. -/
theorem Less_strict_witness :
    ((0 : Int) ≤ 0 ∧ (0 : Int) < ((Queue.mk false [message.mk 132, message.mk 256]).collection.length : Int)) ∧
    ((0 : Int) ≤ 1 ∧ (1 : Int) < ((Queue.mk false [message.mk 132, message.mk 256]).collection.length : Int)) ∧
    Less 0 1 (Queue.mk false [message.mk 132, message.mk 256])
      = Res.ok true (Queue.mk false [message.mk 132, message.mk 256]) ∧
    ∃ a b, index (Queue.mk false [message.mk 132, message.mk 256]).collection 0 = some a ∧
      index (Queue.mk false [message.mk 132, message.mk 256]).collection 1 = some b ∧
      Less 0 1 (Queue.mk false [message.mk 132, message.mk 256])
        = Res.ok (decide (Priority a < Priority b))
            (Queue.mk false [message.mk 132, message.mk 256]) ∧
      (Less 0 1 (Queue.mk false [message.mk 132, message.mk 256])
          = Res.ok true (Queue.mk false [message.mk 132, message.mk 256])
        ↔ Priority a < Priority b) ∧
      Less 0 0 (Queue.mk false [message.mk 132, message.mk 256])
        = Res.ok false (Queue.mk false [message.mk 132, message.mk 256]) ∧
      (Priority a = Priority b → Less 0 1 (Queue.mk false [message.mk 132, message.mk 256])
        = Res.ok false (Queue.mk false [message.mk 132, message.mk 256])) ∧
      ¬ (Less 0 1 (Queue.mk false [message.mk 132, message.mk 256])
          = Res.ok true (Queue.mk false [message.mk 132, message.mk 256]) ∧
        Less 1 0 (Queue.mk false [message.mk 132, message.mk 256])
          = Res.ok true (Queue.mk false [message.mk 132, message.mk 256])) :=
  ⟨⟨by decide, by decide⟩, ⟨by decide, by decide⟩, by decide,
    Less_strict (Queue.mk false [message.mk 132, message.mk 256]) 0 1
      (by decide) (by decide) (by decide) (by decide)⟩

/-- C17, the flag `heaped` is never reset: `NewQueue()` builds the queue with `heaped`
false, and on a queue with `heaped` true every method (`Push`, `Pop`, `Swap`, `Add`,
`Remove`, `AddSlice`, `Member`, `Collection`, `Len`, `Less`, `heapify`) leaves `heaped`
true, whether it returns or panics. -/
theorem heaped_never_reset (q : Queue α) (h : q.heaped = true) :
    (NewQueue : Queue α).heaped = false ∧
    (∀ x, (Push x q).state.heaped = true) ∧
    (Pop q).state.heaped = true ∧
    (∀ i j, (Swap i j q).state.heaped = true) ∧
    (∀ x, (Add x q).state.heaped = true) ∧
    (Remove q).state.heaped = true ∧
    (∀ s, (AddSlice s q).state.heaped = true) ∧
    (∀ i, (Member i q).state.heaped = true) ∧
    (Collection q).state.heaped = true ∧
    (Len q).state.heaped = true ∧
    (∀ i j, (Less i j q).state.heaped = true) ∧
    (heapify q).state.heaped = true := by
  refine ⟨rfl, ?_, ?_, ?_, ?_, ?_, ?_, ?_, h, h, ?_, ?_⟩
  · intro x
    cases x <;> exact h
  · unfold Pop
    split <;> exact h
  · intro i j
    unfold Swap
    split <;> exact h
  · intro x
    rw [Add_run]; rfl
  · by_cases hne : q.collection = []
    · rw [Remove_panic q hne]; rfl
    · obtain ⟨r, q1, h1, hb, _⟩ := Remove_ok q hne
      rw [h1]; exact hb
  · intro s
    rw [AddSlice_run]; rfl
  · intro i
    unfold Member
    split
    · split <;> exact h
    · exact h
  · intro i j
    unfold Less
    split <;> exact h
  · rw [heapify_run]; rfl

/-- Instance of C17 on the heaped queue holding `1, 2`: raw `Push(0)`, `Swap(0, 1)` and
`AddSlice([0])` leave the storage out of heap order and the flag set. -/
theorem heaped_never_reset_witness :
    (Queue.mk true [message.mk 1, message.mk 2]).heaped = true ∧
    ((Push (Value.queueable (message.mk 0)) (Queue.mk true [message.mk 1, message.mk 2])).state.heaped
        = true ∧
      (Swap 0 1 (Queue.mk true [message.mk 1, message.mk 2])).state.heaped = true ∧
      (AddSlice [message.mk 0] (Queue.mk true [message.mk 1, message.mk 2])).state.heaped
        = true) ∧
    (¬ IsHeap
        (Push (Value.queueable (message.mk 0))
          (Queue.mk true [message.mk 1, message.mk 2])).state.collection ∧
      ¬ IsHeap (Swap 0 1 (Queue.mk true [message.mk 1, message.mk 2])).state.collection ∧
      ¬ IsHeap
        (AddSlice [message.mk 0] (Queue.mk true [message.mk 1, message.mk 2])).state.collection) :=
  ⟨rfl,
    ⟨(heaped_never_reset (Queue.mk true [message.mk 1, message.mk 2]) rfl).2.1 _,
      (heaped_never_reset (Queue.mk true [message.mk 1, message.mk 2]) rfl).2.2.2.1 0 1,
      (heaped_never_reset (Queue.mk true [message.mk 1, message.mk 2]) rfl).2.2.2.2.2.2.1 _⟩,
    by decide⟩

/-- C18, heap construction is idempotent: `heapify` returns, and applied twice it
gives the same queue (storage and flag) as applied once; on a queue with `heaped`
false it sets the flag and leaves a heap-ordered permutation of the old storage;
and `heap.Init` on a storage that already satisfies the min-heap property leaves the
queue exactly as it was, so that running it twice equals running it once. -/
theorem heapify_idempotent (q : Queue α) :
    (∃ q1, heapify q = Res.ok () q1 ∧ heapify q1 = Res.ok () q1 ∧
      (do heapify; heapify : Exec (Queue α) Unit) q = heapify q) ∧
    (q.heaped = false → ∃ q1, heapify q = Res.ok () q1 ∧ q1.heaped = true ∧
      q1.collection.Perm q.collection ∧ IsHeap q1.collection) ∧
    (IsHeap q.collection → heap.Init q = Res.ok () q) ∧
    (do heap.Init; heap.Init : Exec (Queue α) Unit) q = heap.Init q := by
  have h2 : heapify (Queue.mk true (heapL q)) = Res.ok () (Queue.mk true (heapL q)) := by
    rw [heapify_run]; rfl
  refine ⟨⟨_, heapify_run q, h2, ?_⟩, ?_, Init_of_isHeap q, ?_⟩
  · rw [Exec.seq_ok (heapify_run q), h2, heapify_run]
  · intro h
    exact ⟨_, heapify_run q, rfl, heapL_perm q, heapL_isHeap q (Or.inl h)⟩
  · obtain ⟨b, l⟩ := q
    rw [Exec.seq_ok (Init_run b l)]
    have hh := initL_isHeap l
    rw [Init_of_isHeap _ hh, Init_run]

/-- Instance of C18: `heapify` on the unordered, not yet heaped storage `3, 1, 2`, and
`heap.Init` on the heap `1, 3, 2`. -/
theorem heapify_idempotent_witness :
    (heapify (Queue.mk false [message.mk 3, message.mk 1, message.mk 2])
      = Res.ok () (Queue.mk true [message.mk 1, message.mk 3, message.mk 2])) ∧
    (∃ q1, heapify (Queue.mk false [message.mk 3, message.mk 1, message.mk 2]) = Res.ok () q1 ∧
      q1.heaped = true ∧
      q1.collection.Perm (Queue.mk false [message.mk 3, message.mk 1, message.mk 2]).collection ∧
      IsHeap q1.collection) ∧
    IsHeap (Queue.mk false [message.mk 1, message.mk 3, message.mk 2]).collection ∧
    heap.Init (Queue.mk false [message.mk 1, message.mk 3, message.mk 2])
      = Res.ok () (Queue.mk false [message.mk 1, message.mk 3, message.mk 2]) :=
  ⟨by decide,
    (heapify_idempotent (Queue.mk false [message.mk 3, message.mk 1, message.mk 2])).2.1 rfl,
    by decide,
    (heapify_idempotent (Queue.mk false [message.mk 1, message.mk 3, message.mk 2])).2.2.1
      (by decide)⟩

/-- C19 as stated fails: no queue has a storage that is in fully ascending priority
order and violates the min-heap property. -/
theorem no_sorted_storage_breaks_heap :
    ¬ ∃ q : Queue message, Ascending q.collection ∧ ¬ IsHeap q.collection := by
  rintro ⟨q, ha, hn⟩
  exact hn (isHeap_of_ascending q.collection ha)

/-- C19, amended: sorting preserves the heap invariant; every storage in fully
ascending priority order (`Member(i-1).Priority() ≤ Member(i).Priority()` for
`1 ≤ i < Len()`, the state `sort.Sort(q)` leaves it in) satisfies the min-heap
property, and `heap.Init` run on it changes nothing. -/
theorem sorted_storage_isHeap (q : Queue α)
    (h : ∀ i : Int, 1 ≤ i → i < (q.collection.length : Int) →
      ∃ x y, Member (i - 1) q = Res.ok (some x, none) q ∧
        Member i q = Res.ok (some y, none) q ∧ Priority x ≤ Priority y) :
    Ascending q.collection ∧ IsHeap q.collection ∧ heap.Init q = Res.ok () q := by
  have ha := (ascending_iff_member q).2 h
  have hh := isHeap_of_ascending q.collection ha
  exact ⟨ha, hh, Init_of_isHeap q hh⟩

/-- Instance of the amended C19 on the sorted storage `1, 2, 3, 4`. -/
theorem sorted_storage_isHeap_witness :
    Ascending (Queue.mk false [message.mk 1, message.mk 2, message.mk 3, message.mk 4]).collection ∧
    IsHeap (Queue.mk false [message.mk 1, message.mk 2, message.mk 3, message.mk 4]).collection ∧
    heap.Init (Queue.mk false [message.mk 1, message.mk 2, message.mk 3, message.mk 4])
      = Res.ok () (Queue.mk false [message.mk 1, message.mk 2, message.mk 3, message.mk 4]) :=
  sorted_storage_isHeap (Queue.mk false [message.mk 1, message.mk 2, message.mk 3, message.mk 4])
    ((ascending_iff_member _).1 (by decide))

/-- C20, `Member` is not guarded against negative indices: for every index `i < 0` the
check `i < q.Len()` succeeds, so `Member(i)` does not return `QERR_OUT_OF_BOUNDS`; it
indexes the storage at a negative position and panics with a run-time
index-out-of-range error instead of returning a `(member, error)` pair. -/
theorem Member_negative_index (q : Queue α) (i : Int) (h : i < 0) :
    i < (q.collection.length : Int) ∧
    Member i q = Res.panic Fault.indexOutOfRange q ∧
    ¬ ∃ r q', Member i q = Res.ok r q' := by
  have hlt : i < (q.collection.length : Int) := by omega
  have hp : Member i q = Res.panic Fault.indexOutOfRange q := by
    simp [Member, hlt, index_none q.collection i (Or.inl h)]
  refine ⟨hlt, hp, ?_⟩
  rintro ⟨r, q', hr⟩
  rw [hp] at hr
  exact Res.noConfusion hr

/-- Instance of C20 at index `-1` of the storage `128, 256, 512`. -/
theorem Member_negative_index_witness :
    (-1 : Int) < 0 ∧
    Member (-1) (Queue.mk false [message.mk 128, message.mk 256, message.mk 512])
      = Res.panic Fault.indexOutOfRange
          (Queue.mk false [message.mk 128, message.mk 256, message.mk 512]) :=
  ⟨by decide,
    (Member_negative_index (Queue.mk false [message.mk 128, message.mk 256, message.mk 512])
      (-1) (by decide)).2.1⟩

end pqueue
